import Mathlib

/-!
# A shallow embedding of the `zorq-acl` crate (`src/lib.rs`)

The crate implements an access-control list with hierarchical roles
(multiple inheritance), hierarchical resources (single-parent forest),
wildcard query slots, a deny-by-default catch-all rule, and an optional
decision cache activated by `lock()`.

The `BTreeMap`/`HashMap` fields are modelled as association lists with
first-match lookup; insertion conses a fresh binding at the front, which
agrees with map insertion as observed through lookup (for the registries,
keys are checked for absence before insertion, so keys are unique).
Recursion in the Rust source that could diverge on cyclic graphs
(unreachable through the public API) is modelled with a fuel parameter,
and a `panic!`/`unwrap` failure is modelled by `Option.none`.
-/

namespace ZorqAcl

abbrev Name := String

/-- Rust `enum Access`: allow or deny access. -/
inductive Access where
  | Allow : Access
  | Deny : Access
deriving DecidableEq, Repr

/-- Rust `struct Rule`: the granted access. -/
structure Rule where
  acc : Access
deriving DecidableEq, Repr

/-- Rust `struct Query`: parameters to query a rule for; `none` is the wildcard. -/
structure Query where
  resource  : Option Name
  role      : Option Name
  privilege : Option Name
deriving DecidableEq, Repr

/-- The catch-all criteria `Query::ALL`. -/
def Query.ALL : Query := { resource := none, role := none, privilege := none }

/-- Rust `enum Error`. -/
inductive Error where
  | DuplicateRole : Name → Error
  | MissingRole : Name → Error
  | MissingParent : Name → Error
  | DuplicateResource : Name → Error
  | MissingResource : Name → Error
  | Locked : Error
deriving DecidableEq, Repr

/-- First-match association-list lookup (the model of map lookup). -/
def lookupA {α β : Type} [DecidableEq α] (k : α) : List (α × β) → Option β
  | [] => none
  | (k', v) :: rest => if k = k' then some v else lookupA k rest

/-- Rust `struct Acl`: resources (name ↦ optional parent), roles (name ↦ stored,
already reversed, parent list), the rule table, and the lock state carrying
the cache when locked (`lock == some cache`). -/
structure Acl where
  resources : List (Name × Option Name)
  roles     : List (Name × List Name)
  rules     : List (Query × Rule)
  lock      : Option (List (Query × Rule))
deriving DecidableEq, Repr

/-- Rust `Acl::new`: empty registries, the catch-all rule seeded to `Deny`, unlocked. -/
def Acl.new : Acl :=
  { resources := []
    roles     := []
    rules     := [(Query.ALL, { acc := Access.Deny })]
    lock      := none }

/-- Rust `Acl::lock`: installs an empty cache when unlocked; no-op when locked. -/
def lockOp (a : Acl) : Acl :=
  if a.lock.isNone then { a with lock := some [] } else a

/-- Rust `Acl::unlock`: discards the cache when locked; no-op when unlocked. -/
def unlockOp (a : Acl) : Acl :=
  if a.lock.isSome then { a with lock := none } else a

/-- Rust `Acl::add_resource`.  Note the Rust `if let Some(name) = parent` shadows
the outer `name`, so `MissingParent` carries the parent's name. -/
def addResource (a : Acl) (name : Name) (parent : Option Name) : Except Error Acl :=
  if (lookupA name a.resources).isSome then
    Except.error (Error.DuplicateResource name)
  else
    match parent with
    | some p =>
      if (lookupA p a.resources).isSome then
        Except.ok { a with resources := (name, parent) :: a.resources }
      else
        Except.error (Error.MissingParent p)
    | none => Except.ok { a with resources := (name, none) :: a.resources }

/-- The `for name in parents` validation loop of `Acl::add_role`: the first
parent missing from the role registry, in declaration order. -/
def firstMissingRole (roles : List (Name × List Name)) : List Name → Option Name
  | [] => none
  | p :: ps => if (lookupA p roles).isNone then some p else firstMissingRole roles ps

/-- Rust `Acl::add_role`: duplicate check, then parent validation in declaration
order (the loop variable shadows `name`, so `MissingParent` carries the
parent's name), then insertion of the reversed parent list. -/
def addRole (a : Acl) (name : Name) (parents : List Name) : Except Error Acl :=
  if (lookupA name a.roles).isSome then
    Except.error (Error.DuplicateRole name)
  else if parents.length > 0 then
    match firstMissingRole a.roles parents with
    | some p => Except.error (Error.MissingParent p)
    | none => Except.ok { a with roles := (name, parents.reverse) :: a.roles }
  else Except.ok { a with roles := (name, []) :: a.roles }

/-- The parent-chain loop inside `Acl::get_resource_lineage`: follows stored
parent pointers.  `none` models the `unwrap` panic on an unregistered stored
parent, or divergence on a cyclic chain (fuel exhaustion). -/
def chainR (resources : List (Name × Option Name)) : Option Name → Nat → Option (List Name)
  | none, _ => some []
  | some _, 0 => none
  | some n, fuel + 1 =>
    match lookupA n resources with
    | none => none
    | some parent => (chainR resources parent fuel).map (fun l => n :: l)

/-- Rust `Acl::get_resource_lineage`: the resource itself followed by its
ancestors; the empty list for an unregistered name.  The fuel
`a.resources.length` bounds the chain length in every reachable state. -/
def getResourceLineage? (a : Acl) (name : Name) : Option (List Name) :=
  match lookupA name a.resources with
  | none => some []
  | some parent => (chainR a.resources parent a.resources.length).map (fun l => name :: l)

/-- One fuel level of `Acl::iter_roles`: the loop over `rs`, where `recurse`
stands for the traversal of a parent list at the next-smaller fuel. -/
def iterRolesAux (m : List (Name × List Name))
    (recurse : List Name → List Name → List Name → Option (List Name × List Name)) :
    List Name → List Name → List Name → Option (List Name × List Name)
  | [], seen, lin => some (seen, lin)
  | r :: rest, seen, lin =>
    let seen1 := if r ∈ seen then seen else r :: seen
    let lin1 := if r ∈ seen then lin else lin ++ [r]
    match lookupA r m with
    | some parents =>
      if parents.length > 0 then
        match recurse parents seen1 lin1 with
        | none => none
        | some (seen2, lin2) => iterRolesAux m recurse rest seen2 lin2
      else iterRolesAux m recurse rest seen1 lin1
    | none => iterRolesAux m recurse rest seen1 lin1

/-- Rust `Acl::iter_roles`: depth-first traversal of the stored parent lists.
A role is appended to the lineage only on its first visit, but its parents
are traversed on every visit (exactly as in the source).  Fuel bounds the
recursion depth; `none` models divergence on a cyclic role graph. -/
def iterRoles (m : List (Name × List Name)) : Nat →
    List Name → List Name → List Name → Option (List Name × List Name)
  | 0 => iterRolesAux m (fun _ _ _ => none)
  | fuel + 1 => iterRolesAux m (iterRoles m fuel)

/-- Rust `Acl::get_role_lineage`: the role itself followed by its ancestors in
DFS order; empty for an unregistered name.  `seen` starts empty and the
lineage starts with the queried name, as in the source. -/
def getRoleLineage? (a : Acl) (name : Name) : Option (List Name) :=
  match lookupA name a.roles with
  | none => some []
  | some parents =>
    if parents.length > 0 then
      (iterRoles a.roles a.roles.length parents [] [name]).map (fun p => p.2)
    else some [name]

/-- Rust `Acl::get_one_rule`: a single rule-table lookup. -/
def getOneRule (a : Acl) (role resource privilege : Option Name) : Option Rule :=
  lookupA { resource := resource, role := role, privilege := privilege } a.rules

/-- Rust `Acl::query_privileges`: probe the specific privilege when one is given;
then the wildcard privilege, but only when the resource or role slot is
non-wildcard. -/
def queryPrivileges (a : Acl) (resource role privilege : Option Name) : Option Rule :=
  let direct := if privilege.isSome then getOneRule a role resource privilege else none
  match direct with
  | some rule => some rule
  | none =>
    if resource.isSome || role.isSome then getOneRule a role resource none
    else none

/-- Rust `Acl::query_roles`: each name of the role lineage in order, then the
wildcard role. -/
def queryRoles (a : Acl) (resource : Option Name) (roles : Option (List Name))
    (privilege : Option Name) : Option Rule :=
  let fromNames :=
    match roles with
    | some names => names.findSome? (fun n => queryPrivileges a resource (some n) privilege)
    | none => none
  match fromNames with
  | some rule => some rule
  | none => queryPrivileges a resource none privilege

/-- Rust `Acl::query_precedence`: the resource lineage in the outer loop, then the
wildcard resource.  `none` models a panic/divergence inside a lineage call. -/
def queryPrecedence? (a : Acl) (role resource privilege : Option Name) : Option (Option Rule) :=
  let resources? : Option (Option (List Name)) :=
    match resource with
    | some n => (getResourceLineage? a n).map some
    | none => some none
  let roles? : Option (Option (List Name)) :=
    match role with
    | some n => (getRoleLineage? a n).map some
    | none => some none
  match resources?, roles? with
  | some resources, some roles =>
    let fromRes :=
      match resources with
      | some names => names.findSome? (fun n => queryRoles a (some n) roles privilege)
      | none => none
    match fromRes with
    | some rule => some (some rule)
    | none => some (queryRoles a none roles privilege)
  | _, _ => none

/-- Cache insertion performed by `get_rule` when locked. -/
def cacheAdd (a : Acl) (q : Query) (r : Rule) : Acl :=
  match a.lock with
  | some c => { a with lock := some ((q, r) :: c) }
  | none => a

/-- Rust `Acl::get_rule`: direct lookup, then (for non-catch-all queries) the
cache when locked, then the hierarchical search (caching a hit), then the
catch-all rule.  The returned pair is the rule and the Acl after the
interior-mutability cache update; `none` models a panic (the `index` on a
missing catch-all) or divergence. -/
def getRuleSt (a : Acl) (role resource privilege : Option Name) : Option (Rule × Acl) :=
  let q : Query := { resource := resource, role := role, privilege := privilege }
  match lookupA q a.rules with
  | some rule => some (rule, a)
  | none =>
    if resource.isSome || role.isSome || privilege.isSome then
      let cached : Option Rule :=
        match a.lock with
        | some cache => lookupA q cache
        | none => none
      match cached with
      | some rule => some (rule, a)
      | none =>
        match queryPrecedence? a role resource privilege with
        | none => none
        | some (some rule) => some (rule, cacheAdd a q rule)
        | some none =>
          match lookupA Query.ALL a.rules with
          | some rule => some (rule, a)
          | none => none
    else
      match lookupA Query.ALL a.rules with
      | some rule => some (rule, a)
      | none => none

/-- The rule returned by `get_rule` (ignoring the cache update). -/
def getRuleVal (a : Acl) (role resource privilege : Option Name) : Option Rule :=
  (getRuleSt a role resource privilege).map Prod.fst

/-- Rust `Acl::is_allowed` (with the cache update dropped). -/
def isAllowed? (a : Acl) (role resource privilege : Option Name) : Option Bool :=
  (getRuleVal a role resource privilege).map (fun r => decide (r.acc = Access.Allow))

/-- Rust `Acl::is_denied` (with the cache update dropped). -/
def isDenied? (a : Acl) (role resource privilege : Option Name) : Option Bool :=
  (getRuleVal a role resource privilege).map (fun r => decide (r.acc = Access.Deny))

/-- Rust `Acl::set_rule`: lock gate first, then resource validation, then role
validation; the catch-all key is silently not overwritten. -/
def setRule (a : Acl) (role resource privilege : Option Name) (access : Access) :
    Except Error Acl :=
  if a.lock.isSome then Except.error Error.Locked
  else
    let resErr : Option Error :=
      match resource with
      | some n => if (lookupA n a.resources).isNone then some (Error.MissingResource n) else none
      | none => none
    match resErr with
    | some e => Except.error e
    | none =>
      let roleErr : Option Error :=
        match role with
        | some n => if (lookupA n a.roles).isNone then some (Error.MissingRole n) else none
        | none => none
      match roleErr with
      | some e => Except.error e
      | none =>
        let q : Query := { resource := resource, role := role, privilege := privilege }
        if q = Query.ALL then Except.ok a
        else Except.ok { a with rules := (q, { acc := access }) :: a.rules }

/-- Rust `Acl::allow`. -/
def allow (a : Acl) (role resource privilege : Option Name) : Except Error Acl :=
  setRule a role resource privilege Access.Allow

/-- Rust `Acl::deny`. -/
def deny (a : Acl) (role resource privilege : Option Name) : Except Error Acl :=
  setRule a role resource privilege Access.Deny

/-! ## Sequences of public API operations -/

/-- One call of the public API. -/
inductive Op where
  | lockA : Op
  | unlockA : Op
  | addRoleA : Name → List Name → Op
  | addResourceA : Name → Option Name → Op
  | setRuleA : Option Name → Option Name → Option Name → Access → Op
  | queryA : Option Name → Option Name → Option Name → Op
deriving DecidableEq, Repr

/-- Execute one operation: the new state, and the rule returned when the
operation is a query.  A failing mutation leaves the state unchanged (each
fallible method of the source returns its error before any write).  `none`
models a panic or divergence inside `get_rule`. -/
def runOp (a : Acl) : Op → Option (Acl × List Rule)
  | Op.lockA => some (lockOp a, [])
  | Op.unlockA => some (unlockOp a, [])
  | Op.addRoleA n ps => some ((addRole a n ps).toOption.getD a, [])
  | Op.addResourceA n p => some ((addResource a n p).toOption.getD a, [])
  | Op.setRuleA ro re pr ac => some ((setRule a ro re pr ac).toOption.getD a, [])
  | Op.queryA ro re pr => (getRuleSt a ro re pr).map (fun p => (p.2, [p.1]))

/-- Execute a sequence of operations, collecting the query results. -/
def runT (a : Acl) : List Op → Option (Acl × List Rule)
  | [] => some (a, [])
  | op :: ops =>
    match runOp a op with
    | none => none
    | some (a1, t1) =>
      match runT a1 ops with
      | none => none
      | some (a2, t2) => some (a2, t1 ++ t2)

/-- Whether an operation is a `lock()` or `unlock()` call. -/
def isLockOp : Op → Bool
  | Op.lockA => true
  | Op.unlockA => true
  | _ => false

/-- Remove every `lock()` / `unlock()` call from a sequence. -/
def stripLocks (ops : List Op) : List Op :=
  ops.filter (fun op => !(isLockOp op))

/-- Predicate `unlockedMuts locked ops` holds when, starting from lock state `locked`,
every mutation (`add_role`, `add_resource`, `set_rule`) of the sequence
executes in the unlocked state.  The lock state during a run depends only on
the `lock`/`unlock` calls of the prefix, so this is a property of the
sequence alone. -/
def unlockedMuts : Bool → List Op → Bool
  | _, [] => true
  | _, Op.lockA :: ops => unlockedMuts true ops
  | _, Op.unlockA :: ops => unlockedMuts false ops
  | locked, Op.queryA _ _ _ :: ops => unlockedMuts locked ops
  | locked, Op.addRoleA _ _ :: ops => !locked && unlockedMuts locked ops
  | locked, Op.addResourceA _ _ :: ops => !locked && unlockedMuts locked ops
  | locked, Op.setRuleA _ _ _ _ :: ops => !locked && unlockedMuts locked ops

/-! ## Spec-side definitions

These follow the wording of the specification (§4.1 lineage, §4.4 resolver
precedence), to be compared with the definitions translated from the source.
-/

/-- Concatenation of the lists produced for each element. -/
def concatMapL {α β : Type} (f : α → List β) : List α → List β
  | [] => []
  | x :: xs => f x ++ concatMapL f xs

/-- Spec §4.4 inner step: the probes attempted at a fixed resource/role slot
pair — the specific privilege first (when the query names one); then, only
if the resource or role slot of the probe is non-wildcard, the wildcard
privilege. -/
def probesFor (resSlot roleSlot privilege : Option Name) : List Query :=
  (if privilege.isSome then
    [{ resource := resSlot, role := roleSlot, privilege := privilege }]
  else []) ++
  (if resSlot.isSome || roleSlot.isSome then
    [{ resource := resSlot, role := roleSlot, privilege := none }]
  else [])

/-- Spec §4.4 loop slots: the lineage (when the query names the entity),
followed by the wildcard. -/
def slotL : Option (List Name) → List (Option Name)
  | some names => names.map some ++ [none]
  | none => [none]

/-- Spec §4.4 step 2, as one flat probe list: outer loop over resource
specificity, middle loop over role specificity, inner privilege probes; the
first rule-table hit wins. -/
def specSearch (a : Acl) (role resource privilege : Option Name) : Option Rule :=
  let resSlots : List (Option Name) :=
    slotL (match resource with
           | some n => some ((getResourceLineage? a n).getD [])
           | none => none)
  let roleSlots : List (Option Name) :=
    slotL (match role with
           | some n => some ((getRoleLineage? a n).getD [])
           | none => none)
  (concatMapL (fun rs => concatMapL (fun rl => probesFor rs rl privilege) roleSlots)
      resSlots).findSome?
    (fun q => lookupA q a.rules)

/-- One fuel level of the pre-order expansion: the loop over `rs`, where
`recurse` expands a parent list at the next-smaller fuel. -/
def expandRolesAux (m : List (Name × List Name))
    (recurse : List Name → Option (List Name)) : List Name → Option (List Name)
  | [] => some []
  | r :: rest =>
    match lookupA r m with
    | some parents =>
      if parents.length > 0 then
        match recurse parents with
        | none => none
        | some sub => (expandRolesAux m recurse rest).map (fun tail => r :: (sub ++ tail))
      else (expandRolesAux m recurse rest).map (fun tail => r :: tail)
    | none => (expandRolesAux m recurse rest).map (fun tail => r :: tail)

/-- The full pre-order expansion (with multiplicity) of the DFS over the
stored parent lists, with the same fuel discipline as `iterRoles`. -/
def expandRoles (m : List (Name × List Name)) : Nat → List Name → Option (List Name)
  | 0 => expandRolesAux m (fun _ => none)
  | fuel + 1 => expandRolesAux m (expandRoles m fuel)

/-- First-visit-wins deduplication: keeps the first occurrence of each name
not already in `seen`, threading the visited set. -/
def fvAcc : List Name → List Name → List Name × List Name
  | seen, [] => (seen, [])
  | seen, x :: xs =>
    if x ∈ seen then fvAcc seen xs
    else
      let p := fvAcc (x :: seen) xs
      (p.1, x :: p.2)

/-- Spec §4.1 `get_role_lineage`: the name itself, followed by the ancestors
in DFS pre-order over the stored (reversed) parent lists, each ancestor kept
at its first visit only; empty for an unregistered name. -/
def roleLineageSpec (a : Acl) (name : Name) : Option (List Name) :=
  match lookupA name a.roles with
  | none => some []
  | some parents =>
    (expandRoles a.roles a.roles.length parents).map
      (fun e => name :: (fvAcc [] e).2)

/-! ## Invariants and reachability -/

/-- Well-formedness of the resource registry: keys are unique and every
stored parent is registered among the older entries (so parent chains are
finite and never dangle). -/
def ResOk : List (Name × Option Name) → Prop
  | [] => True
  | (n, p) :: rest =>
    lookupA n rest = none ∧ (∀ q, p = some q → (lookupA q rest).isSome = true) ∧ ResOk rest

/-- Well-formedness of the role registry: keys are unique and every stored
parent is registered among the older entries (the role graph is a DAG). -/
def RolesOk : List (Name × List Name) → Prop
  | [] => True
  | (n, ps) :: rest =>
    lookupA n rest = none ∧ (∀ p ∈ ps, (lookupA p rest).isSome = true) ∧ RolesOk rest

/-- The state invariant: the catch-all key maps to `Deny`, and both
registries are well-formed. -/
def Inv (a : Acl) : Prop :=
  lookupA Query.ALL a.rules = some { acc := Access.Deny } ∧
    ResOk a.resources ∧ RolesOk a.roles

/-- States reachable from `Acl::new` through the public API. -/
inductive Reachable : Acl → Prop where
  | base : Reachable Acl.new
  | lockR {a} : Reachable a → Reachable (lockOp a)
  | unlockR {a} : Reachable a → Reachable (unlockOp a)
  | addRoleR {a n ps a'} : Reachable a → addRole a n ps = Except.ok a' → Reachable a'
  | addResourceR {a n p a'} : Reachable a → addResource a n p = Except.ok a' → Reachable a'
  | setRuleR {a ro re pr ac a'} : Reachable a → setRule a ro re pr ac = Except.ok a' →
      Reachable a'
  | queryR {a ro re pr r a'} : Reachable a → getRuleSt a ro re pr = some (r, a') →
      Reachable a'

/-- Position of a key counted from the old end of an association list
(`0` for an absent key, `rest.length + 1` at the entry).  Parents always
have strictly smaller rank than their children. -/
def rankOf {β : Type} : List (Name × β) → Name → Nat
  | [], _ => 0
  | (k, _) :: rest, n => if n = k then rest.length + 1 else rankOf rest n

/-- Forget the lock state and the cache. -/
def eraseL (a : Acl) : Acl := { a with lock := none }

/-- Every entry of the decision cache agrees with the hierarchical search in
the current state. -/
def CacheOk (a : Acl) : Prop :=
  ∀ c, a.lock = some c → ∀ q r, lookupA q c = some r →
    queryPrecedence? a q.role q.resource q.privilege = some (some r)

/-! ## Lookup and `findSome?` plumbing -/

theorem lookupA_cons_self {α β : Type} [DecidableEq α] (k : α) (v : β) (l : List (α × β)) :
    lookupA k ((k, v) :: l) = some v := by
  simp [lookupA]

theorem lookupA_cons_ne {α β : Type} [DecidableEq α] {k k' : α} (v : β) (l : List (α × β))
    (h : k ≠ k') : lookupA k ((k', v) :: l) = lookupA k l := by
  simp [lookupA, h]

theorem findSome?_append {α β : Type} (f : α → Option β) (l₁ l₂ : List α) :
    (l₁ ++ l₂).findSome? f =
      match l₁.findSome? f with
      | some b => some b
      | none => l₂.findSome? f := by
  induction l₁ with
  | nil => simp
  | cons x xs ih =>
    simp only [List.cons_append, List.findSome?_cons]
    cases f x <;> simp [ih]

theorem concatMapL_findSome? {α β γ : Type} (g : α → List β) (f : β → Option γ)
    (l : List α) :
    (concatMapL g l).findSome? f = l.findSome? (fun x => (g x).findSome? f) := by
  induction l with
  | nil => simp [concatMapL]
  | cons x xs ih =>
    simp only [concatMapL, findSome?_append, List.findSome?_cons, ih]
    cases (g x).findSome? f <;> rfl

theorem findSome?_congrF {α β : Type} {f g : α → Option β} (l : List α)
    (h : ∀ x ∈ l, f x = g x) : l.findSome? f = l.findSome? g := by
  induction l with
  | nil => rfl
  | cons x xs ih =>
    simp only [List.findSome?_cons, h x (by simp)]
    cases g x with
    | some b => rfl
    | none => exact ih (fun y hy => h y (by simp [hy]))

theorem findSome?_map_some {γ : Type} (inner : Option Name → Option γ)
    (names : List Name) :
    (names.map some).findSome? inner = names.findSome? (fun n => inner (some n)) := by
  induction names with
  | nil => simp
  | cons n ns ih => simp only [List.map_cons, List.findSome?_cons, ih]

theorem slotL_findSome? {γ : Type} (inner : Option Name → Option γ)
    (names : List Name) :
    (slotL (some names)).findSome? inner =
      match names.findSome? (fun n => inner (some n)) with
      | some r => some r
      | none => inner none := by
  simp only [slotL, findSome?_append, findSome?_map_some]
  cases names.findSome? (fun n => inner (some n)) with
  | some r => rfl
  | none =>
    simp only [List.findSome?_cons, List.findSome?_nil]
    cases inner none <;> rfl

/-! ## The nested search loops equal the flat spec probe list -/

theorem opt_probe {β γ : Type} (c : Bool) (q : β) (f : β → Option γ) :
    (if c then [q] else []).findSome? f = if c then f q else none := by
  cases c with
  | false => rfl
  | true =>
    simp only [if_true, List.findSome?_cons, List.findSome?_nil]
    cases f q <;> rfl

theorem queryPrivileges_eq (a : Acl) (re ro pr : Option Name) :
    queryPrivileges a re ro pr =
      (probesFor re ro pr).findSome? (fun q => lookupA q a.rules) := by
  simp only [queryPrivileges, probesFor, getOneRule]
  rw [findSome?_append, opt_probe, opt_probe]
  cases (if pr.isSome = true then
      lookupA { resource := re, role := ro, privilege := pr } a.rules else none) <;> rfl

theorem queryRoles_eq (a : Acl) (re : Option Name) (roles : Option (List Name))
    (pr : Option Name) :
    queryRoles a re roles pr =
      (slotL roles).findSome? (fun rl => queryPrivileges a re rl pr) := by
  cases roles with
  | none =>
    simp only [queryRoles, slotL, List.findSome?_cons, List.findSome?_nil]
    cases queryPrivileges a re none pr <;> rfl
  | some names =>
    rw [slotL_findSome?]
    unfold queryRoles
    cases h : names.findSome? (fun n => queryPrivileges a re (some n) pr) <;> simp [h]

theorem queryRoles_probes (a : Acl) (re : Option Name) (roles : Option (List Name))
    (pr : Option Name) :
    queryRoles a re roles pr =
      (concatMapL (fun rl => probesFor re rl pr) (slotL roles)).findSome?
        (fun q => lookupA q a.rules) := by
  rw [queryRoles_eq, concatMapL_findSome?]
  exact findSome?_congrF _ (fun rl _ => queryPrivileges_eq a re rl pr)

theorem findSome?_singleton {α β : Type} (f : α → Option β) (x : α) :
    [x].findSome? f = f x := by
  simp only [List.findSome?_cons, List.findSome?_nil]
  cases f x <;> rfl

theorem specSearch_queryRoles (a : Acl) (ro re pr : Option Name) :
    specSearch a ro re pr =
      (slotL (match re with
              | some n => some ((getResourceLineage? a n).getD [])
              | none => none)).findSome?
        (fun rs => queryRoles a rs
          (match ro with
           | some n => some ((getRoleLineage? a n).getD [])
           | none => none) pr) := by
  simp only [specSearch]
  rw [concatMapL_findSome?]
  exact findSome?_congrF _ (fun rs _ => (queryRoles_probes a rs _ pr).symm)

theorem queryPrecedence?_eq (a : Acl) (ro re pr : Option Name)
    (hre : ∀ n, re = some n → (getResourceLineage? a n).isSome = true)
    (hro : ∀ n, ro = some n → (getRoleLineage? a n).isSome = true) :
    queryPrecedence? a ro re pr = some (specSearch a ro re pr) := by
  rw [specSearch_queryRoles]
  unfold queryPrecedence?
  cases re with
  | none =>
    cases ro with
    | none =>
      simp only [slotL, findSome?_singleton]
    | some rn =>
      obtain ⟨RL, hRL⟩ := Option.isSome_iff_exists.mp (hro rn rfl)
      simp only [hRL, Option.map_some', Option.getD_some, slotL, findSome?_singleton]
  | some n =>
    obtain ⟨L, hL⟩ := Option.isSome_iff_exists.mp (hre n rfl)
    cases ro with
    | none =>
      simp only [hL, Option.map_some', Option.getD_some]
      rw [slotL_findSome?]
      cases hF : L.findSome? (fun x => queryRoles a (some x) none pr) <;> simp [hF]
    | some rn =>
      obtain ⟨RL, hRL⟩ := Option.isSome_iff_exists.mp (hro rn rfl)
      simp only [hL, hRL, Option.map_some', Option.getD_some]
      rw [slotL_findSome?]
      cases hF : L.findSome? (fun x => queryRoles a (some x) (some RL) pr) <;> simp [hF]

/-! ## Ranks and registry well-formedness -/

theorem rankOf_le_length {β : Type} (m : List (Name × β)) (n : Name) :
    rankOf m n ≤ m.length := by
  induction m with
  | nil => simp [rankOf]
  | cons e rest ih =>
    obtain ⟨k, v⟩ := e
    simp only [rankOf, List.length_cons]
    split <;> omega

theorem rankOf_pos {β : Type} {m : List (Name × β)} {n : Name}
    (h : (lookupA n m).isSome = true) : 1 ≤ rankOf m n := by
  induction m with
  | nil => simp [lookupA] at h
  | cons e rest ih =>
    obtain ⟨k, v⟩ := e
    simp only [rankOf]
    by_cases hk : n = k
    · simp [hk]
    · rw [lookupA_cons_ne _ _ hk] at h
      simp only [if_neg hk]
      exact ih h

theorem registered_ne {β : Type} {m : List (Name × β)} {k p : Name}
    (hk : lookupA k m = none) (hp : (lookupA p m).isSome = true) : p ≠ k := by
  intro h
  rw [h, hk] at hp
  simp at hp

theorem resOk_parent {m : List (Name × Option Name)} (hm : ResOk m) {n p : Name}
    (h : lookupA n m = some (some p)) :
    (lookupA p m).isSome = true ∧ rankOf m p < rankOf m n := by
  induction m with
  | nil => simp [lookupA] at h
  | cons e rest ih =>
    obtain ⟨k, pv⟩ := e
    obtain ⟨hk, hpar, hrest⟩ := hm
    by_cases hnk : n = k
    · subst hnk
      rw [lookupA_cons_self] at h
      obtain rfl : pv = some p := Option.some_injective _ h
      have hreg : (lookupA p rest).isSome = true := hpar p rfl
      have hpk : p ≠ n := registered_ne hk hreg
      constructor
      · rw [lookupA_cons_ne _ _ hpk]
        exact hreg
      · simp only [rankOf, if_neg hpk, if_pos rfl]
        exact Nat.lt_succ_of_le (rankOf_le_length rest p)
    · rw [lookupA_cons_ne _ _ hnk] at h
      obtain ⟨hreg, hrank⟩ := ih hrest h
      have hpk : p ≠ k := registered_ne hk hreg
      constructor
      · rw [lookupA_cons_ne _ _ hpk]
        exact hreg
      · simp only [rankOf, if_neg hpk, if_neg hnk]
        exact hrank

theorem rolesOk_parent {m : List (Name × List Name)} (hm : RolesOk m) {n p : Name}
    {ps : List Name} (h : lookupA n m = some ps) (hp : p ∈ ps) :
    (lookupA p m).isSome = true ∧ rankOf m p < rankOf m n := by
  induction m with
  | nil => simp [lookupA] at h
  | cons e rest ih =>
    obtain ⟨k, pv⟩ := e
    obtain ⟨hk, hpar, hrest⟩ := hm
    by_cases hnk : n = k
    · subst hnk
      rw [lookupA_cons_self] at h
      obtain rfl : pv = ps := Option.some_injective _ h
      have hreg : (lookupA p rest).isSome = true := hpar p hp
      have hpk : p ≠ n := registered_ne hk hreg
      constructor
      · rw [lookupA_cons_ne _ _ hpk]
        exact hreg
      · simp only [rankOf, if_neg hpk, if_pos rfl]
        exact Nat.lt_succ_of_le (rankOf_le_length rest p)
    · rw [lookupA_cons_ne _ _ hnk] at h
      obtain ⟨hreg, hrank⟩ := ih hrest h
      have hpk : p ≠ k := registered_ne hk hreg
      constructor
      · rw [lookupA_cons_ne _ _ hpk]
        exact hreg
      · simp only [rankOf, if_neg hpk, if_neg hnk]
        exact hrank

/-! ## Totality, monotonicity and framing of the resource parent chain -/

theorem chainR_total {m : List (Name × Option Name)} (hm : ResOk m) :
    ∀ (f : Nat) (p : Option Name),
      (∀ x, p = some x → (lookupA x m).isSome = true ∧ rankOf m x ≤ f) →
      (chainR m p f).isSome = true := by
  intro f
  induction f with
  | zero =>
    intro p hp
    cases p with
    | none => rfl
    | some x =>
      have ⟨hreg, hrank⟩ := hp x rfl
      have := rankOf_pos hreg
      omega
  | succ f ih =>
    intro p hp
    cases p with
    | none => rfl
    | some x =>
      have ⟨hreg, _⟩ := hp x rfl
      obtain ⟨pv, hpv⟩ := Option.isSome_iff_exists.mp hreg
      simp only [chainR, hpv]
      rw [Option.isSome_map']
      apply ih
      intro y hy
      subst hy
      obtain ⟨hyreg, hyrank⟩ := resOk_parent hm hpv
      have ⟨_, hxrank⟩ := hp x rfl
      exact ⟨hyreg, by omega⟩

theorem chainR_mono {m : List (Name × Option Name)} :
    ∀ (f g : Nat) (p : Option Name) (l : List Name), f ≤ g →
      chainR m p f = some l → chainR m p g = some l := by
  intro f
  induction f with
  | zero =>
    intro g p l _ h
    cases p with
    | none => simpa [chainR] using h
    | some x => simp [chainR] at h
  | succ f ih =>
    intro g p l hfg h
    cases p with
    | none => simpa [chainR] using h
    | some x =>
      obtain ⟨g', rfl⟩ : ∃ g', g = g' + 1 := ⟨g - 1, by omega⟩
      simp only [chainR] at h ⊢
      cases hx : lookupA x m with
      | none => rw [hx] at h; simp at h
      | some pv =>
        rw [hx] at h
        dsimp only at h ⊢
        obtain ⟨l', hl', rfl⟩ := Option.map_eq_some'.mp h
        rw [ih g' pv l' (by omega) hl']
        rfl

theorem chainR_fresh {m : List (Name × Option Name)} (hm : ResOk m) {x : Name}
    (hx : lookupA x m = none) (px : Option Name) :
    ∀ (f : Nat) (p : Option Name), (∀ y, p = some y → y ≠ x) →
      chainR ((x, px) :: m) p f = chainR m p f := by
  intro f
  induction f with
  | zero =>
    intro p hp
    cases p <;> rfl
  | succ f ih =>
    intro p hp
    cases p with
    | none => rfl
    | some y =>
      have hyx : y ≠ x := hp y rfl
      simp only [chainR, lookupA_cons_ne _ _ hyx]
      cases hy : lookupA y m with
      | none => rfl
      | some pv =>
        dsimp only
        rw [ih pv]
        intro z hz
        subst hz
        obtain ⟨hzreg, _⟩ := resOk_parent hm hy
        exact registered_ne hx hzreg

theorem getResourceLineage?_isSome {a : Acl} (h : ResOk a.resources) (n : Name) :
    (getResourceLineage? a n).isSome = true := by
  unfold getResourceLineage?
  cases hn : lookupA n a.resources with
  | none => rfl
  | some parent =>
    rw [Option.isSome_map']
    apply chainR_total h
    intro x hx
    subst hx
    obtain ⟨hreg, hrank⟩ := resOk_parent h hn
    exact ⟨hreg, le_trans (le_of_lt hrank) (rankOf_le_length _ _)⟩

/-! ## Unfolding equations for the role DFS and its expansion -/

theorem expandRoles_nil (m : List (Name × List Name)) (f : Nat) :
    expandRoles m f [] = some [] := by
  cases f <;> rfl

theorem expandRoles_cons_none {m : List (Name × List Name)} {r : Name}
    (h : lookupA r m = none) (f : Nat) (rest : List Name) :
    expandRoles m f (r :: rest) = (expandRoles m f rest).map (fun tail => r :: tail) := by
  cases f <;> simp [expandRoles, expandRolesAux, h]

theorem expandRoles_cons_nil {m : List (Name × List Name)} {r : Name} {ps : List Name}
    (h : lookupA r m = some ps) (hps : ¬ps.length > 0) (f : Nat) (rest : List Name) :
    expandRoles m f (r :: rest) = (expandRoles m f rest).map (fun tail => r :: tail) := by
  cases f <;> simp [expandRoles, expandRolesAux, h, hps]

theorem expandRoles_cons_pos_zero {m : List (Name × List Name)} {r : Name} {ps : List Name}
    (h : lookupA r m = some ps) (hps : ps.length > 0) (rest : List Name) :
    expandRoles m 0 (r :: rest) = none := by
  simp [expandRoles, expandRolesAux, h, hps]

theorem expandRoles_cons_pos_succ {m : List (Name × List Name)} {r : Name} {ps : List Name}
    (h : lookupA r m = some ps) (hps : ps.length > 0) (f : Nat) (rest : List Name) :
    expandRoles m (f + 1) (r :: rest) =
      match expandRoles m f ps with
      | none => none
      | some sub => (expandRoles m (f + 1) rest).map (fun tail => r :: (sub ++ tail)) := by
  simp [expandRoles, expandRolesAux, h, hps]

theorem iterRoles_nil (m : List (Name × List Name)) (f : Nat) (seen lin : List Name) :
    iterRoles m f [] seen lin = some (seen, lin) := by
  cases f <;> rfl

theorem iterRoles_cons_none {m : List (Name × List Name)} {r : Name}
    (h : lookupA r m = none) (f : Nat) (rest seen lin : List Name) :
    iterRoles m f (r :: rest) seen lin =
      iterRoles m f rest (if r ∈ seen then seen else r :: seen)
        (if r ∈ seen then lin else lin ++ [r]) := by
  cases f <;> simp [iterRoles, iterRolesAux, h]

theorem iterRoles_cons_nil {m : List (Name × List Name)} {r : Name} {ps : List Name}
    (h : lookupA r m = some ps) (hps : ¬ps.length > 0) (f : Nat) (rest seen lin : List Name) :
    iterRoles m f (r :: rest) seen lin =
      iterRoles m f rest (if r ∈ seen then seen else r :: seen)
        (if r ∈ seen then lin else lin ++ [r]) := by
  cases f <;> simp [iterRoles, iterRolesAux, h, hps]

theorem iterRoles_cons_pos_zero {m : List (Name × List Name)} {r : Name} {ps : List Name}
    (h : lookupA r m = some ps) (hps : ps.length > 0) (rest seen lin : List Name) :
    iterRoles m 0 (r :: rest) seen lin = none := by
  simp [iterRoles, iterRolesAux, h, hps]

theorem iterRoles_cons_pos_succ {m : List (Name × List Name)} {r : Name} {ps : List Name}
    (h : lookupA r m = some ps) (hps : ps.length > 0) (f : Nat) (rest seen lin : List Name) :
    iterRoles m (f + 1) (r :: rest) seen lin =
      match iterRoles m f ps (if r ∈ seen then seen else r :: seen)
          (if r ∈ seen then lin else lin ++ [r]) with
      | none => none
      | some (seen2, lin2) => iterRoles m (f + 1) rest seen2 lin2 := by
  simp [iterRoles, iterRolesAux, h, hps]

/-! ## Totality, monotonicity and framing of the expansion -/

theorem expandRoles_total {m : List (Name × List Name)} (hm : RolesOk m) :
    ∀ (f : Nat) (rs : List Name), (∀ r ∈ rs, rankOf m r ≤ f) →
      (expandRoles m f rs).isSome = true := by
  intro f
  induction f with
  | zero =>
    intro rs h
    induction rs with
    | nil => rfl
    | cons r rest ihr =>
      have hr0 : rankOf m r ≤ 0 := h r (by simp)
      have hnone : lookupA r m = none := by
        cases hl : lookupA r m with
        | none => rfl
        | some ps =>
          have := rankOf_pos (m := m) (n := r) (by simp [hl])
          omega
      rw [expandRoles_cons_none hnone, Option.isSome_map']
      exact ihr (fun x hx => h x (by simp [hx]))
  | succ f ihf =>
    intro rs h
    induction rs with
    | nil => rfl
    | cons r rest ihr =>
      have ihrest : (expandRoles m (f + 1) rest).isSome = true :=
        ihr (fun x hx => h x (by simp [hx]))
      cases hl : lookupA r m with
      | none => rw [expandRoles_cons_none hl, Option.isSome_map']; exact ihrest
      | some ps =>
        by_cases hps : ps.length > 0
        · have hsub : (expandRoles m f ps).isSome = true := by
            apply ihf
            intro p hp
            obtain ⟨_, hrank⟩ := rolesOk_parent hm hl hp
            have : rankOf m r ≤ f + 1 := h r (by simp)
            omega
          obtain ⟨sub, hsubv⟩ := Option.isSome_iff_exists.mp hsub
          rw [expandRoles_cons_pos_succ hl hps, hsubv]
          dsimp only
          rw [Option.isSome_map']
          exact ihrest
        · rw [expandRoles_cons_nil hl hps, Option.isSome_map']
          exact ihrest

theorem expandRoles_mono {m : List (Name × List Name)} :
    ∀ (f g : Nat) (rs e : List Name), f ≤ g →
      expandRoles m f rs = some e → expandRoles m g rs = some e := by
  intro f
  induction f with
  | zero =>
    intro g rs e _ h
    induction rs generalizing e with
    | nil =>
      rw [expandRoles_nil] at h
      rw [expandRoles_nil]
      exact h
    | cons r rest ihr =>
      cases hl : lookupA r m with
      | none =>
        rw [expandRoles_cons_none hl] at h
        obtain ⟨tail, htail, rfl⟩ := Option.map_eq_some'.mp h
        rw [expandRoles_cons_none hl, ihr tail htail]
        rfl
      | some ps =>
        by_cases hps : ps.length > 0
        · rw [expandRoles_cons_pos_zero hl hps] at h
          exact absurd h (by simp)
        · rw [expandRoles_cons_nil hl hps] at h
          obtain ⟨tail, htail, rfl⟩ := Option.map_eq_some'.mp h
          rw [expandRoles_cons_nil hl hps, ihr tail htail]
          rfl
  | succ f ihf =>
    intro g rs e hfg h
    obtain ⟨g', rfl⟩ : ∃ g', g = g' + 1 := ⟨g - 1, by omega⟩
    induction rs generalizing e with
    | nil =>
      rw [expandRoles_nil] at h
      rw [expandRoles_nil]
      exact h
    | cons r rest ihr =>
      cases hl : lookupA r m with
      | none =>
        rw [expandRoles_cons_none hl] at h
        obtain ⟨tail, htail, rfl⟩ := Option.map_eq_some'.mp h
        rw [expandRoles_cons_none hl, ihr tail htail]
        rfl
      | some ps =>
        by_cases hps : ps.length > 0
        · rw [expandRoles_cons_pos_succ hl hps] at h
          cases hsub : expandRoles m f ps with
          | none => rw [hsub] at h; simp at h
          | some sub =>
            rw [hsub] at h
            dsimp only at h
            obtain ⟨tail, htail, rfl⟩ := Option.map_eq_some'.mp h
            rw [expandRoles_cons_pos_succ hl hps,
              ihf g' ps sub (by omega) hsub]
            dsimp only
            rw [ihr tail htail]
            rfl
        · rw [expandRoles_cons_nil hl hps] at h
          obtain ⟨tail, htail, rfl⟩ := Option.map_eq_some'.mp h
          rw [expandRoles_cons_nil hl hps, ihr tail htail]
          rfl

theorem expandRoles_fresh {m : List (Name × List Name)} (hm : RolesOk m) {x : Name}
    (hx : lookupA x m = none) (ps0 : List Name) :
    ∀ (f : Nat) (rs : List Name), (∀ r ∈ rs, r ≠ x) →
      expandRoles ((x, ps0) :: m) f rs = expandRoles m f rs := by
  intro f
  induction f with
  | zero =>
    intro rs h
    induction rs with
    | nil => rw [expandRoles_nil, expandRoles_nil]
    | cons r rest ihr =>
      have hrx : r ≠ x := h r (by simp)
      have hlr : lookupA r ((x, ps0) :: m) = lookupA r m := lookupA_cons_ne _ _ hrx
      have ihr' := ihr (fun y hy => h y (by simp [hy]))
      cases hl : lookupA r m with
      | none =>
        rw [expandRoles_cons_none (hlr.trans hl), expandRoles_cons_none hl, ihr']
      | some ps =>
        by_cases hps : ps.length > 0
        · rw [expandRoles_cons_pos_zero (hlr.trans hl) hps,
            expandRoles_cons_pos_zero hl hps]
        · rw [expandRoles_cons_nil (hlr.trans hl) hps,
            expandRoles_cons_nil hl hps, ihr']
  | succ f ihf =>
    intro rs h
    induction rs with
    | nil => rw [expandRoles_nil, expandRoles_nil]
    | cons r rest ihr =>
      have hrx : r ≠ x := h r (by simp)
      have hlr : lookupA r ((x, ps0) :: m) = lookupA r m := lookupA_cons_ne _ _ hrx
      have ihr' := ihr (fun y hy => h y (by simp [hy]))
      cases hl : lookupA r m with
      | none =>
        rw [expandRoles_cons_none (hlr.trans hl), expandRoles_cons_none hl, ihr']
      | some ps =>
        have hpsx : ∀ p ∈ ps, p ≠ x := by
          intro p hp
          obtain ⟨hreg, _⟩ := rolesOk_parent hm hl hp
          exact registered_ne hx hreg
        by_cases hps : ps.length > 0
        · rw [expandRoles_cons_pos_succ (hlr.trans hl) hps,
            expandRoles_cons_pos_succ hl hps, ihf ps hpsx, ihr']
        · rw [expandRoles_cons_nil (hlr.trans hl) hps,
            expandRoles_cons_nil hl hps, ihr']

theorem expandRoles_rank {m : List (Name × List Name)} (hm : RolesOk m) :
    ∀ (f : Nat) (rs e : List Name), expandRoles m f rs = some e →
      ∀ y ∈ e, ∃ r ∈ rs, rankOf m y ≤ rankOf m r := by
  intro f
  induction f with
  | zero =>
    intro rs
    induction rs with
    | nil =>
      intro e h y hy
      rw [expandRoles_nil] at h
      obtain rfl : ([] : List Name) = e := Option.some_injective _ h
      simp at hy
    | cons r rest ihr =>
      intro e h y hy
      cases hl : lookupA r m with
      | none =>
        rw [expandRoles_cons_none hl] at h
        obtain ⟨tail, htail, rfl⟩ := Option.map_eq_some'.mp h
        rcases List.mem_cons.mp hy with rfl | hy'
        · exact ⟨y, by simp, le_refl _⟩
        · obtain ⟨r', hr', hle⟩ := ihr tail htail y hy'
          exact ⟨r', by simp [hr'], hle⟩
      | some ps =>
        by_cases hps : ps.length > 0
        · rw [expandRoles_cons_pos_zero hl hps] at h
          exact absurd h (by simp)
        · rw [expandRoles_cons_nil hl hps] at h
          obtain ⟨tail, htail, rfl⟩ := Option.map_eq_some'.mp h
          rcases List.mem_cons.mp hy with rfl | hy'
          · exact ⟨y, by simp, le_refl _⟩
          · obtain ⟨r', hr', hle⟩ := ihr tail htail y hy'
            exact ⟨r', by simp [hr'], hle⟩
  | succ f ihf =>
    intro rs
    induction rs with
    | nil =>
      intro e h y hy
      rw [expandRoles_nil] at h
      obtain rfl : ([] : List Name) = e := Option.some_injective _ h
      simp at hy
    | cons r rest ihr =>
      intro e h y hy
      cases hl : lookupA r m with
      | none =>
        rw [expandRoles_cons_none hl] at h
        obtain ⟨tail, htail, rfl⟩ := Option.map_eq_some'.mp h
        rcases List.mem_cons.mp hy with rfl | hy'
        · exact ⟨y, by simp, le_refl _⟩
        · obtain ⟨r', hr', hle⟩ := ihr tail htail y hy'
          exact ⟨r', by simp [hr'], hle⟩
      | some ps =>
        by_cases hps : ps.length > 0
        · rw [expandRoles_cons_pos_succ hl hps] at h
          cases hsub : expandRoles m f ps with
          | none => rw [hsub] at h; simp at h
          | some sub =>
            rw [hsub] at h
            dsimp only at h
            obtain ⟨tail, htail, rfl⟩ := Option.map_eq_some'.mp h
            rcases List.mem_cons.mp hy with rfl | hy'
            · exact ⟨y, by simp, le_refl _⟩
            rcases List.mem_append.mp hy' with hsubm | htailm
            · obtain ⟨p, hp, hle⟩ := ihf ps sub hsub y hsubm
              obtain ⟨_, hrank⟩ := rolesOk_parent hm hl hp
              exact ⟨r, by simp, by omega⟩
            · obtain ⟨r', hr', hle⟩ := ihr tail htail y htailm
              exact ⟨r', by simp [hr'], hle⟩
        · rw [expandRoles_cons_nil hl hps] at h
          obtain ⟨tail, htail, rfl⟩ := Option.map_eq_some'.mp h
          rcases List.mem_cons.mp hy with rfl | hy'
          · exact ⟨y, by simp, le_refl _⟩
          · obtain ⟨r', hr', hle⟩ := ihr tail htail y hy'
            exact ⟨r', by simp [hr'], hle⟩

/-! ## First-visit deduplication -/

theorem fvAcc_cons_mem {seen : List Name} {x : Name} (h : x ∈ seen) (xs : List Name) :
    fvAcc seen (x :: xs) = fvAcc seen xs := by
  simp [fvAcc, h]

theorem fvAcc_cons_not {seen : List Name} {x : Name} (h : x ∉ seen) (xs : List Name) :
    fvAcc seen (x :: xs) =
      ((fvAcc (x :: seen) xs).1, x :: (fvAcc (x :: seen) xs).2) := by
  simp [fvAcc, h]

theorem fvAcc_append (l₁ l₂ : List Name) : ∀ seen,
    fvAcc seen (l₁ ++ l₂) =
      ((fvAcc (fvAcc seen l₁).1 l₂).1,
        (fvAcc seen l₁).2 ++ (fvAcc (fvAcc seen l₁).1 l₂).2) := by
  induction l₁ with
  | nil => intro seen; simp [fvAcc]
  | cons x xs ih =>
    intro seen
    by_cases h : x ∈ seen
    · rw [List.cons_append, fvAcc_cons_mem h, fvAcc_cons_mem h, ih]
    · rw [List.cons_append, fvAcc_cons_not h, fvAcc_cons_not h, ih]
      simp

theorem fvAcc_out_new : ∀ (l seen : List Name) (x : Name),
    x ∈ (fvAcc seen l).2 → x ∉ seen := by
  intro l
  induction l with
  | nil => intro seen x hx; simp [fvAcc] at hx
  | cons y ys ih =>
    intro seen x hx
    by_cases h : y ∈ seen
    · rw [fvAcc_cons_mem h] at hx
      exact ih seen x hx
    · rw [fvAcc_cons_not h] at hx
      rcases List.mem_cons.mp hx with rfl | hx'
      · exact h
      · intro hs
        exact ih (y :: seen) x hx' (by simp [hs])

theorem fvAcc_nodup : ∀ (l seen : List Name), (fvAcc seen l).2.Nodup := by
  intro l
  induction l with
  | nil => intro seen; simp [fvAcc]
  | cons y ys ih =>
    intro seen
    by_cases h : y ∈ seen
    · rw [fvAcc_cons_mem h]
      exact ih seen
    · rw [fvAcc_cons_not h]
      refine List.nodup_cons.mpr ⟨?_, ih (y :: seen)⟩
      intro hy
      exact fvAcc_out_new ys (y :: seen) y hy (by simp)

theorem fvAcc_out_subset : ∀ (l seen : List Name) (x : Name),
    x ∈ (fvAcc seen l).2 → x ∈ l := by
  intro l
  induction l with
  | nil => intro seen x hx; simp [fvAcc] at hx
  | cons y ys ih =>
    intro seen x hx
    by_cases h : y ∈ seen
    · rw [fvAcc_cons_mem h] at hx
      exact List.mem_cons_of_mem _ (ih seen x hx)
    · rw [fvAcc_cons_not h] at hx
      rcases List.mem_cons.mp hx with rfl | hx'
      · simp
      · exact List.mem_cons_of_mem _ (ih (y :: seen) x hx')

/-! ## The source DFS is the first-visit filter of the spec expansion -/

theorem iterRoles_eq_expand (m : List (Name × List Name)) :
    ∀ (f : Nat) (rs seen lin : List Name),
      iterRoles m f rs seen lin =
        (expandRoles m f rs).map
          (fun e => ((fvAcc seen e).1, lin ++ (fvAcc seen e).2)) := by
  intro f
  induction f with
  | zero =>
    intro rs
    induction rs with
    | nil =>
      intro seen lin
      rw [iterRoles_nil, expandRoles_nil]
      simp [fvAcc]
    | cons r rest ihr =>
      intro seen lin
      cases hl : lookupA r m with
      | none =>
        rw [iterRoles_cons_none hl, expandRoles_cons_none hl, ihr]
        cases he : expandRoles m 0 rest with
        | none => rfl
        | some tail =>
          by_cases hm : r ∈ seen
          · simp [hm, fvAcc_cons_mem hm]
          · simp [hm, fvAcc_cons_not hm]
      | some ps =>
        by_cases hps : ps.length > 0
        · rw [iterRoles_cons_pos_zero hl hps, expandRoles_cons_pos_zero hl hps]
          rfl
        · rw [iterRoles_cons_nil hl hps, expandRoles_cons_nil hl hps, ihr]
          cases he : expandRoles m 0 rest with
          | none => rfl
          | some tail =>
            by_cases hm : r ∈ seen
            · simp [hm, fvAcc_cons_mem hm]
            · simp [hm, fvAcc_cons_not hm]
  | succ f ihf =>
    intro rs
    induction rs with
    | nil =>
      intro seen lin
      rw [iterRoles_nil, expandRoles_nil]
      simp [fvAcc]
    | cons r rest ihr =>
      intro seen lin
      cases hl : lookupA r m with
      | none =>
        rw [iterRoles_cons_none hl, expandRoles_cons_none hl, ihr]
        cases he : expandRoles m (f + 1) rest with
        | none => rfl
        | some tail =>
          by_cases hm : r ∈ seen
          · simp [hm, fvAcc_cons_mem hm]
          · simp [hm, fvAcc_cons_not hm]
      | some ps =>
        by_cases hps : ps.length > 0
        · rw [iterRoles_cons_pos_succ hl hps, expandRoles_cons_pos_succ hl hps, ihf]
          cases hsub : expandRoles m f ps with
          | none => rfl
          | some sub =>
            dsimp only [Option.map_some']
            rw [ihr]
            cases he : expandRoles m (f + 1) rest with
            | none => rfl
            | some tail =>
              dsimp only [Option.map_some']
              by_cases hm : r ∈ seen
              · rw [if_pos hm, if_pos hm, fvAcc_cons_mem hm, fvAcc_append]
                simp
              · rw [if_neg hm, if_neg hm, fvAcc_cons_not hm, fvAcc_append]
                simp
        · rw [iterRoles_cons_nil hl hps, expandRoles_cons_nil hl hps, ihr]
          cases he : expandRoles m (f + 1) rest with
          | none => rfl
          | some tail =>
            by_cases hm : r ∈ seen
            · simp [hm, fvAcc_cons_mem hm]
            · simp [hm, fvAcc_cons_not hm]

/-! ## Role and resource lineage: spec equality, totality, nodup, framing -/

theorem getRoleLineage?_eq_spec (a : Acl) (name : Name) :
    getRoleLineage? a name = roleLineageSpec a name := by
  unfold getRoleLineage? roleLineageSpec
  cases hn : lookupA name a.roles with
  | none => rfl
  | some parents =>
    dsimp only
    by_cases hps : parents.length > 0
    · rw [if_pos hps, iterRoles_eq_expand]
      cases he : expandRoles a.roles a.roles.length parents with
      | none => rfl
      | some e => simp
    · rw [if_neg hps]
      obtain rfl : parents = [] := List.length_eq_zero.mp (by omega)
      rw [expandRoles_nil]
      simp [fvAcc]

theorem getRoleLineage?_isSome {a : Acl} (h : RolesOk a.roles) (n : Name) :
    (getRoleLineage? a n).isSome = true := by
  unfold getRoleLineage?
  cases hn : lookupA n a.roles with
  | none => rfl
  | some parents =>
    dsimp only
    by_cases hps : parents.length > 0
    · rw [if_pos hps, iterRoles_eq_expand, Option.isSome_map', Option.isSome_map']
      apply expandRoles_total h
      intro p hp
      obtain ⟨_, hrank⟩ := rolesOk_parent h hn hp
      have := rankOf_le_length a.roles n
      omega
    · rw [if_neg hps]
      rfl

theorem getRoleLineage?_nodup {a : Acl} (h : RolesOk a.roles) {n : Name} {l : List Name}
    (hl : getRoleLineage? a n = some l) : l.Nodup := by
  rw [getRoleLineage?_eq_spec] at hl
  unfold roleLineageSpec at hl
  cases hn : lookupA n a.roles with
  | none =>
    rw [hn] at hl
    obtain rfl : ([] : List Name) = l := Option.some_injective _ hl
    exact List.nodup_nil
  | some parents =>
    rw [hn] at hl
    dsimp only at hl
    obtain ⟨e, he, rfl⟩ := Option.map_eq_some'.mp hl
    refine List.nodup_cons.mpr ⟨?_, fvAcc_nodup e []⟩
    intro hmem
    have hmeme : n ∈ e := fvAcc_out_subset e [] n hmem
    obtain ⟨r, hr, hrank⟩ := expandRoles_rank h _ _ _ he n hmeme
    obtain ⟨_, hlt⟩ := rolesOk_parent h hn hr
    omega

theorem getRoleLineage?_fresh {a a' : Acl} {x : Name} {ps0 : List Name}
    (hroles : a'.roles = (x, ps0) :: a.roles) (hm : RolesOk a.roles)
    (hx : lookupA x a.roles = none) {q : Name} (hq : q ≠ x) :
    getRoleLineage? a' q = getRoleLineage? a q := by
  unfold getRoleLineage?
  rw [hroles, lookupA_cons_ne _ _ hq]
  cases hn : lookupA q a.roles with
  | none => rfl
  | some parents =>
    dsimp only
    by_cases hps : parents.length > 0
    · rw [if_pos hps, if_pos hps, iterRoles_eq_expand, iterRoles_eq_expand]
      have hpsx : ∀ p ∈ parents, p ≠ x := by
        intro p hp
        obtain ⟨hreg, _⟩ := rolesOk_parent hm hn hp
        exact registered_ne hx hreg
      have htotal : (expandRoles a.roles a.roles.length parents).isSome = true := by
        apply expandRoles_total hm
        intro p hp
        obtain ⟨_, hrank⟩ := rolesOk_parent hm hn hp
        have := rankOf_le_length a.roles q
        omega
      obtain ⟨e, he⟩ := Option.isSome_iff_exists.mp htotal
      have hmono : expandRoles a.roles (a.roles.length + 1) parents = some e :=
        expandRoles_mono _ _ _ _ (Nat.le_succ _) he
      rw [List.length_cons, expandRoles_fresh hm hx ps0 _ _ hpsx, hmono, he]
    · rw [if_neg hps, if_neg hps]

theorem getResourceLineage?_fresh {a a' : Acl} {x : Name} {px : Option Name}
    (hres : a'.resources = (x, px) :: a.resources) (hm : ResOk a.resources)
    (hx : lookupA x a.resources = none) {q : Name} (hq : q ≠ x) :
    getResourceLineage? a' q = getResourceLineage? a q := by
  unfold getResourceLineage?
  rw [hres, lookupA_cons_ne _ _ hq]
  cases hn : lookupA q a.resources with
  | none => rfl
  | some parent =>
    dsimp only
    have hne : ∀ y, parent = some y → y ≠ x := by
      intro y hy
      subst hy
      obtain ⟨hreg, _⟩ := resOk_parent hm hn
      exact registered_ne hx hreg
    have htotal : (chainR a.resources parent a.resources.length).isSome = true := by
      apply chainR_total hm
      intro y hy
      subst hy
      obtain ⟨hreg, hrank⟩ := resOk_parent hm hn
      exact ⟨hreg, le_trans (le_of_lt hrank) (rankOf_le_length _ _)⟩
    obtain ⟨l, hlv⟩ := Option.isSome_iff_exists.mp htotal
    have hmono : chainR a.resources parent (a.resources.length + 1) = some l :=
      chainR_mono _ _ _ _ (Nat.le_succ _) hlv
    rw [List.length_cons, chainR_fresh hm hx px _ _ hne, hmono, hlv]

/-! ## Inversion of the mutating operations -/

theorem firstMissingRole_none {m : List (Name × List Name)} :
    ∀ {ps : List Name}, firstMissingRole m ps = none →
      ∀ p ∈ ps, (lookupA p m).isSome = true := by
  intro ps
  induction ps with
  | nil => intro _ p hp; simp at hp
  | cons q qs ih =>
    intro h p hp
    unfold firstMissingRole at h
    by_cases hq : (lookupA q m).isNone
    · rw [if_pos hq] at h
      exact absurd h (by simp)
    · rw [if_neg hq] at h
      rcases List.mem_cons.mp hp with rfl | hp'
      · cases hl : lookupA p m with
        | none => exact absurd (by simp [hl]) hq
        | some v => rfl
      · exact ih h p hp'

theorem firstMissingRole_first {m : List (Name × List Name)} :
    ∀ (pre : List Name) (p : Name) (rest : List Name),
      (∀ x ∈ pre, (lookupA x m).isSome = true) → lookupA p m = none →
      firstMissingRole m (pre ++ p :: rest) = some p := by
  intro pre
  induction pre with
  | nil =>
    intro p rest _ hp
    simp [firstMissingRole, hp]
  | cons x xs ih =>
    intro p rest hpre hp
    have hx : (lookupA x m).isSome = true := hpre x (by simp)
    rw [List.cons_append]
    unfold firstMissingRole
    rw [if_neg (by simp [Option.isNone_iff_eq_none]; exact Option.isSome_iff_ne_none.mp hx)]
    exact ih p rest (fun y hy => hpre y (by simp [hy])) hp

theorem addRole_ok {a : Acl} {n : Name} {ps : List Name} {a' : Acl}
    (h : addRole a n ps = Except.ok a') :
    lookupA n a.roles = none ∧ (∀ p ∈ ps, (lookupA p a.roles).isSome = true) ∧
      a' = { a with roles := (n, ps.reverse) :: a.roles } := by
  unfold addRole at h
  by_cases h1 : (lookupA n a.roles).isSome
  · rw [if_pos h1] at h
    exact absurd h (by simp)
  · rw [if_neg h1] at h
    have hn : lookupA n a.roles = none := by
      cases hl : lookupA n a.roles with
      | none => rfl
      | some v => exact absurd (by simp [hl]) h1
    by_cases h2 : ps.length > 0
    · rw [if_pos h2] at h
      cases hfm : firstMissingRole a.roles ps with
      | some p =>
        rw [hfm] at h
        exact absurd h (by simp)
      | none =>
        rw [hfm] at h
        exact ⟨hn, firstMissingRole_none hfm, (Except.ok.inj h).symm⟩
    · rw [if_neg h2] at h
      obtain rfl : ps = [] := List.length_eq_zero.mp (by omega)
      exact ⟨hn, by simp, (Except.ok.inj h).symm⟩

theorem addResource_ok {a : Acl} {n : Name} {p : Option Name} {a' : Acl}
    (h : addResource a n p = Except.ok a') :
    lookupA n a.resources = none ∧
      (∀ q, p = some q → (lookupA q a.resources).isSome = true) ∧
      a' = { a with resources := (n, p) :: a.resources } := by
  unfold addResource at h
  by_cases h1 : (lookupA n a.resources).isSome
  · rw [if_pos h1] at h
    exact absurd h (by simp)
  · rw [if_neg h1] at h
    have hn : lookupA n a.resources = none := by
      cases hl : lookupA n a.resources with
      | none => rfl
      | some v => exact absurd (by simp [hl]) h1
    cases p with
    | none => exact ⟨hn, by simp, (Except.ok.inj h).symm⟩
    | some q =>
      dsimp only at h
      by_cases h2 : (lookupA q a.resources).isSome
      · rw [if_pos h2] at h
        refine ⟨hn, ?_, (Except.ok.inj h).symm⟩
        intro y hy
        cases hy
        exact h2
      · rw [if_neg h2] at h
        exact absurd h (by simp)

theorem setRule_ok {a : Acl} {ro re pr : Option Name} {ac : Access} {a' : Acl}
    (h : setRule a ro re pr ac = Except.ok a') :
    a.lock = none ∧
      ((({ resource := re, role := ro, privilege := pr } : Query) = Query.ALL ∧ a' = a) ∨
       (({ resource := re, role := ro, privilege := pr } : Query) ≠ Query.ALL ∧
         a' = { a with rules :=
           ({ resource := re, role := ro, privilege := pr }, { acc := ac }) :: a.rules })) := by
  unfold setRule at h
  by_cases h1 : a.lock.isSome
  · rw [if_pos h1] at h
    exact absurd h (by simp)
  · rw [if_neg h1] at h
    have hlock : a.lock = none := by
      cases hl : a.lock with
      | none => rfl
      | some v => exact absurd (by simp [hl]) h1
    refine ⟨hlock, ?_⟩
    cases re with
    | none =>
      dsimp only at h
      cases ro with
      | none =>
        dsimp only at h
        by_cases hall : ({ resource := none, role := none, privilege := pr } : Query) = Query.ALL
        · rw [if_pos hall] at h
          exact Or.inl ⟨hall, (Except.ok.inj h).symm⟩
        · rw [if_neg hall] at h
          exact Or.inr ⟨hall, (Except.ok.inj h).symm⟩
      | some qn =>
        dsimp only at h
        by_cases hq : (lookupA qn a.roles).isNone = true
        · rw [if_pos hq] at h
          exact absurd h (by simp)
        · rw [if_neg hq] at h
          dsimp only at h
          by_cases hall : ({ resource := none, role := some qn, privilege := pr } : Query) = Query.ALL
          · rw [if_pos hall] at h
            exact Or.inl ⟨hall, (Except.ok.inj h).symm⟩
          · rw [if_neg hall] at h
            exact Or.inr ⟨hall, (Except.ok.inj h).symm⟩
    | some rn =>
      dsimp only at h
      by_cases hr : (lookupA rn a.resources).isNone = true
      · rw [if_pos hr] at h
        exact absurd h (by simp)
      · rw [if_neg hr] at h
        dsimp only at h
        cases ro with
        | none =>
          dsimp only at h
          by_cases hall : ({ resource := some rn, role := none, privilege := pr } : Query) = Query.ALL
          · rw [if_pos hall] at h
            exact Or.inl ⟨hall, (Except.ok.inj h).symm⟩
          · rw [if_neg hall] at h
            exact Or.inr ⟨hall, (Except.ok.inj h).symm⟩
        | some qn =>
          dsimp only at h
          by_cases hq : (lookupA qn a.roles).isNone = true
          · rw [if_pos hq] at h
            exact absurd h (by simp)
          · rw [if_neg hq] at h
            dsimp only at h
            by_cases hall : ({ resource := some rn, role := some qn, privilege := pr } : Query) = Query.ALL
            · rw [if_pos hall] at h
              exact Or.inl ⟨hall, (Except.ok.inj h).symm⟩
            · rw [if_neg hall] at h
              exact Or.inr ⟨hall, (Except.ok.inj h).symm⟩

theorem lockOp_of_none {a : Acl} (h : a.lock = none) :
    lockOp a = { a with lock := some [] } := by
  unfold lockOp
  rw [h]
  rfl

theorem lockOp_of_some {a : Acl} {c : List (Query × Rule)} (h : a.lock = some c) :
    lockOp a = a := by
  unfold lockOp
  rw [h]
  rfl

theorem unlockOp_eq (a : Acl) : unlockOp a = { a with lock := none } := by
  unfold unlockOp
  cases hl : a.lock with
  | none =>
    simp only [Option.isSome_none, Bool.false_eq_true, if_false]
    cases a
    simp_all
  | some c => rfl

theorem cacheAdd_fields (a : Acl) (q : Query) (r : Rule) :
    (cacheAdd a q r).resources = a.resources ∧ (cacheAdd a q r).roles = a.roles ∧
      (cacheAdd a q r).rules = a.rules ∧ (cacheAdd a q r).lock.isSome = a.lock.isSome := by
  unfold cacheAdd
  cases hl : a.lock <;> simp [hl]

theorem getRuleSt_state {a : Acl} {ro re pr : Option Name} {r : Rule} {a' : Acl}
    (h : getRuleSt a ro re pr = some (r, a')) :
    a'.resources = a.resources ∧ a'.roles = a.roles ∧ a'.rules = a.rules ∧
      a'.lock.isSome = a.lock.isSome := by
  unfold getRuleSt at h
  dsimp only at h
  split at h
  · obtain ⟨rfl, rfl⟩ := Prod.mk.inj (Option.some.inj h)
    exact ⟨rfl, rfl, rfl, rfl⟩
  · split at h
    · split at h
      · obtain ⟨rfl, rfl⟩ := Prod.mk.inj (Option.some.inj h)
        exact ⟨rfl, rfl, rfl, rfl⟩
      · split at h
        · exact absurd h (by simp)
        · obtain ⟨rfl, rfl⟩ := Prod.mk.inj (Option.some.inj h)
          exact cacheAdd_fields a _ _
        · split at h
          · obtain ⟨rfl, rfl⟩ := Prod.mk.inj (Option.some.inj h)
            exact ⟨rfl, rfl, rfl, rfl⟩
          · exact absurd h (by simp)
    · split at h
      · obtain ⟨rfl, rfl⟩ := Prod.mk.inj (Option.some.inj h)
        exact ⟨rfl, rfl, rfl, rfl⟩
      · exact absurd h (by simp)

/-! ## The invariant holds in every reachable state -/

theorem acl_ext {a b : Acl} (h1 : a.resources = b.resources) (h2 : a.roles = b.roles)
    (h3 : a.rules = b.rules) (h4 : a.lock = b.lock) : a = b := by
  cases a
  cases b
  simp_all

theorem inv_of_fields {a b : Acl} (h : Inv a) (hres : b.resources = a.resources)
    (hrol : b.roles = a.roles) (hrul : b.rules = a.rules) : Inv b := by
  unfold Inv at h ⊢
  rw [hres, hrol, hrul]
  exact h

theorem inv_new : Inv Acl.new := by
  refine ⟨?_, trivial, trivial⟩
  rfl

theorem reachable_inv {a : Acl} (h : Reachable a) : Inv a := by
  induction h with
  | base => exact inv_new
  | lockR _ ih =>
    apply inv_of_fields ih <;> (unfold lockOp; split <;> rfl)
  | unlockR _ ih =>
    rw [unlockOp_eq]
    exact inv_of_fields ih rfl rfl rfl
  | addRoleR _ hok ih =>
    obtain ⟨hn, hps, rfl⟩ := addRole_ok hok
    obtain ⟨h1, h2, h3⟩ := ih
    refine ⟨h1, h2, hn, ?_, h3⟩
    intro p hp
    exact hps p (List.mem_reverse.mp hp)
  | addResourceR _ hok ih =>
    obtain ⟨hn, hp, rfl⟩ := addResource_ok hok
    obtain ⟨h1, h2, h3⟩ := ih
    exact ⟨h1, ⟨hn, hp, h2⟩, h3⟩
  | setRuleR _ hok ih =>
    obtain ⟨hlock, hcase⟩ := setRule_ok hok
    obtain ⟨h1, h2, h3⟩ := ih
    rcases hcase with ⟨_, rfl⟩ | ⟨hne, rfl⟩
    · exact ⟨h1, h2, h3⟩
    · refine ⟨?_, h2, h3⟩
      rw [lookupA_cons_ne _ _ (Ne.symm hne)]
      exact h1
  | queryR _ hq ih =>
    obtain ⟨hres, hrol, hrul, _⟩ := getRuleSt_state hq
    exact inv_of_fields ih hres hrol hrul

/-! ## Characterization of `get_rule` -/

theorem queryPrecedence?_lock (a : Acl) (l : Option (List (Query × Rule)))
    (ro re pr : Option Name) :
    queryPrecedence? { a with lock := l } ro re pr = queryPrecedence? a ro re pr := rfl

theorem specSearch_lock (a : Acl) (l : Option (List (Query × Rule)))
    (ro re pr : Option Name) :
    specSearch { a with lock := l } ro re pr = specSearch a ro re pr := rfl

theorem guard_of_ne_all {re ro pr : Option Name}
    (h : ({ resource := re, role := ro, privilege := pr } : Query) ≠ Query.ALL) :
    (re.isSome || ro.isSome || pr.isSome) = true := by
  cases re <;> cases ro <;> cases pr <;> simp_all [Query.ALL]

theorem getRuleSt_direct {a : Acl} {ro re pr : Option Name} {r : Rule}
    (hd : lookupA { resource := re, role := ro, privilege := pr } a.rules = some r) :
    getRuleSt a ro re pr = some (r, a) := by
  unfold getRuleSt
  dsimp only
  rw [hd]

theorem getRuleSt_cache {a : Acl} {ro re pr : Option Name} {c : List (Query × Rule)}
    {r : Rule}
    (hd : lookupA { resource := re, role := ro, privilege := pr } a.rules = none)
    (hne : ({ resource := re, role := ro, privilege := pr } : Query) ≠ Query.ALL)
    (hl : a.lock = some c)
    (hc : lookupA { resource := re, role := ro, privilege := pr } c = some r) :
    getRuleSt a ro re pr = some (r, a) := by
  unfold getRuleSt
  dsimp only
  rw [hd, if_pos (guard_of_ne_all hne), hl]
  dsimp only
  rw [hc]

theorem getRuleSt_search {a : Acl} {ro re pr : Option Name} {rule : Rule}
    (hd : lookupA { resource := re, role := ro, privilege := pr } a.rules = none)
    (hne : ({ resource := re, role := ro, privilege := pr } : Query) ≠ Query.ALL)
    (hc : (match a.lock with
           | some c => lookupA { resource := re, role := ro, privilege := pr } c
           | none => none) = none)
    (hq : queryPrecedence? a ro re pr = some (some rule)) :
    getRuleSt a ro re pr =
      some (rule, cacheAdd a { resource := re, role := ro, privilege := pr } rule) := by
  unfold getRuleSt
  dsimp only
  rw [hd, if_pos (guard_of_ne_all hne), hc, hq]

theorem getRuleSt_catch {a : Acl} {ro re pr : Option Name} {rd : Rule}
    (hd : lookupA { resource := re, role := ro, privilege := pr } a.rules = none)
    (hne : ({ resource := re, role := ro, privilege := pr } : Query) ≠ Query.ALL)
    (hc : (match a.lock with
           | some c => lookupA { resource := re, role := ro, privilege := pr } c
           | none => none) = none)
    (hq : queryPrecedence? a ro re pr = some none)
    (hall : lookupA Query.ALL a.rules = some rd) :
    getRuleSt a ro re pr = some (rd, a) := by
  unfold getRuleSt
  dsimp only
  rw [hd, if_pos (guard_of_ne_all hne), hc, hq, hall]

/-! ## Totality of `get_rule` and soundness of the cache -/

theorem cacheOk_of_unlocked {a : Acl} (h : a.lock = none) : CacheOk a := by
  intro c hc
  rw [h] at hc
  cases hc

theorem cacheAdd_of_some {a : Acl} {c : List (Query × Rule)} (h : a.lock = some c)
    (q : Query) (r : Rule) : cacheAdd a q r = { a with lock := some ((q, r) :: c) } := by
  unfold cacheAdd
  rw [h]

theorem cacheAdd_of_none {a : Acl} (h : a.lock = none) (q : Query) (r : Rule) :
    cacheAdd a q r = a := by
  unfold cacheAdd
  rw [h]

theorem eraseL_eq (a : Acl) : eraseL a = { a with lock := none } := rfl

theorem queryPrecedence?_inv {a : Acl} (hI : Inv a) (ro re pr : Option Name) :
    queryPrecedence? a ro re pr = some (specSearch a ro re pr) :=
  queryPrecedence?_eq a ro re pr
    (fun n _ => getResourceLineage?_isSome hI.2.1 n)
    (fun n _ => getRoleLineage?_isSome hI.2.2 n)

theorem ne_all_of_direct_miss {a : Acl} (hI : Inv a) {re ro pr : Option Name}
    (hd : lookupA { resource := re, role := ro, privilege := pr } a.rules = none) :
    ({ resource := re, role := ro, privilege := pr } : Query) ≠ Query.ALL := by
  intro hq
  rw [hq, hI.1] at hd
  cases hd

theorem getRuleSt_total {a : Acl} (hI : Inv a) (ro re pr : Option Name) :
    ∃ r a', getRuleSt a ro re pr = some (r, a') := by
  have hall := hI.1
  cases hd : lookupA { resource := re, role := ro, privilege := pr } a.rules with
  | some r => exact ⟨r, a, getRuleSt_direct hd⟩
  | none =>
    have hne := ne_all_of_direct_miss hI hd
    have hqp := queryPrecedence?_inv hI ro re pr
    cases hl : a.lock with
    | some c =>
      cases hc : lookupA { resource := re, role := ro, privilege := pr } c with
      | some r => exact ⟨r, a, getRuleSt_cache hd hne hl hc⟩
      | none =>
        cases hs : specSearch a ro re pr with
        | some rule =>
          exact ⟨rule, _, getRuleSt_search hd hne (by rw [hl]; exact hc) (by rw [hqp, hs])⟩
        | none =>
          exact ⟨_, a, getRuleSt_catch hd hne (by rw [hl]; exact hc) (by rw [hqp, hs]) hall⟩
    | none =>
      cases hs : specSearch a ro re pr with
      | some rule =>
        exact ⟨rule, _, getRuleSt_search hd hne (by rw [hl]) (by rw [hqp, hs])⟩
      | none =>
        exact ⟨_, a, getRuleSt_catch hd hne (by rw [hl]) (by rw [hqp, hs]) hall⟩

theorem getRuleVal_search {a : Acl} (hI : Inv a) {ro re pr : Option Name}
    (hd : lookupA { resource := re, role := ro, privilege := pr } a.rules = none)
    (hcm : ∀ c, a.lock = some c →
      lookupA { resource := re, role := ro, privilege := pr } c = none) :
    getRuleVal a ro re pr =
      some ((specSearch a ro re pr).getD { acc := Access.Deny }) := by
  have hall := hI.1
  have hne := ne_all_of_direct_miss hI hd
  have hqp := queryPrecedence?_inv hI ro re pr
  have hc : (match a.lock with
      | some c => lookupA { resource := re, role := ro, privilege := pr } c
      | none => none) = none := by
    cases hl : a.lock with
    | none => rfl
    | some c => exact hcm c hl
  cases hs : specSearch a ro re pr with
  | some rule =>
    unfold getRuleVal
    rw [getRuleSt_search hd hne hc (by rw [hqp, hs])]
    rfl
  | none =>
    unfold getRuleVal
    rw [getRuleSt_catch hd hne hc (by rw [hqp, hs]) hall]
    rfl

theorem eraseL_cacheAdd (a : Acl) (q : Query) (r : Rule) :
    eraseL (cacheAdd a q r) = eraseL a := by
  unfold cacheAdd
  cases hl : a.lock with
  | none => rfl
  | some c => rfl

theorem getRule_erase {a : Acl} (hI : Inv a) (hC : CacheOk a) {ro re pr : Option Name}
    {r : Rule} {a' : Acl} (h : getRuleSt a ro re pr = some (r, a')) :
    getRuleVal (eraseL a) ro re pr = some r ∧ eraseL a' = eraseL a ∧
      a'.lock.isSome = a.lock.isSome ∧ Inv a' ∧ CacheOk a' := by
  have hall := hI.1
  have hIe : Inv (eraseL a) := inv_of_fields hI rfl rfl rfl
  have hqpe : queryPrecedence? (eraseL a) ro re pr = queryPrecedence? a ro re pr := by
    rw [eraseL_eq]
    exact queryPrecedence?_lock a none ro re pr
  cases hd : lookupA { resource := re, role := ro, privilege := pr } a.rules with
  | some r0 =>
    rw [getRuleSt_direct hd] at h
    obtain ⟨rfl, rfl⟩ := Prod.mk.inj (Option.some.inj h)
    refine ⟨?_, rfl, rfl, hI, hC⟩
    unfold getRuleVal
    rw [getRuleSt_direct (a := eraseL a) hd]
    rfl
  | none =>
    have hne := ne_all_of_direct_miss hI hd
    have hqp := queryPrecedence?_inv hI ro re pr
    cases hl : a.lock with
    | some c =>
      cases hc : lookupA { resource := re, role := ro, privilege := pr } c with
      | some rc =>
        rw [getRuleSt_cache hd hne hl hc] at h
        obtain ⟨rfl, rfl⟩ := Prod.mk.inj (Option.some.inj h)
        refine ⟨?_, rfl, by rw [hl], hI, hC⟩
        have hcached := hC c hl _ _ hc
        unfold getRuleVal
        rw [getRuleSt_search (a := eraseL a) hd hne (by rw [eraseL_eq]) (by rw [hqpe]; exact hcached)]
        rfl
      | none =>
        have hcmatch : (match a.lock with
            | some c0 => lookupA { resource := re, role := ro, privilege := pr } c0
            | none => none) = none := by rw [hl]; exact hc
        cases hs : specSearch a ro re pr with
        | some rule =>
          rw [getRuleSt_search hd hne hcmatch (by rw [hqp, hs])] at h
          obtain ⟨rfl, rfl⟩ := Prod.mk.inj (Option.some.inj h)
          have hlock' := cacheAdd_of_some hl { resource := re, role := ro, privilege := pr } rule
          refine ⟨?_, eraseL_cacheAdd a _ rule, ?_, ?_, ?_⟩
          · have hsearch : queryPrecedence? a ro re pr = some (some rule) := by rw [hqp, hs]
            unfold getRuleVal
            rw [getRuleSt_search (a := eraseL a) hd hne (by rw [eraseL_eq]) (by rw [hqpe]; exact hsearch)]
            rfl
          · rw [hlock']
            rfl
          · exact inv_of_fields hI (by rw [hlock']) (by rw [hlock']) (by rw [hlock'])
          · intro c' hc' q0 r0 h0
            rw [hlock'] at hc'
            obtain rfl : (({ resource := re, role := ro, privilege := pr }, rule) :: c)
                = c' := Option.some.inj hc'
            have hq0 : queryPrecedence? (cacheAdd a { resource := re, role := ro, privilege := pr } rule)
                q0.role q0.resource q0.privilege
                = queryPrecedence? a q0.role q0.resource q0.privilege := by
              rw [hlock']
              exact queryPrecedence?_lock a _ _ _ _
            rw [hq0]
            by_cases hqq : q0 = ({ resource := re, role := ro, privilege := pr } : Query)
            · subst hqq
              rw [lookupA_cons_self] at h0
              obtain rfl : rule = r0 := Option.some.inj h0
              rw [hqp, hs]
            · rw [lookupA_cons_ne _ _ hqq] at h0
              exact hC c hl q0 r0 h0
        | none =>
          rw [getRuleSt_catch hd hne hcmatch (by rw [hqp, hs]) hall] at h
          obtain ⟨rfl, rfl⟩ := Prod.mk.inj (Option.some.inj h)
          refine ⟨?_, rfl, by rw [hl], hI, hC⟩
          unfold getRuleVal
          rw [getRuleSt_catch (a := eraseL a) hd hne (by rw [eraseL_eq])
            (by rw [hqpe, hqp, hs]) hall]
          rfl
    | none =>
      have hcmatch : (match a.lock with
          | some c0 => lookupA { resource := re, role := ro, privilege := pr } c0
          | none => none) = none := by rw [hl]
      cases hs : specSearch a ro re pr with
      | some rule =>
        rw [getRuleSt_search hd hne hcmatch (by rw [hqp, hs])] at h
        obtain ⟨rfl, rfl⟩ := Prod.mk.inj (Option.some.inj h)
        rw [cacheAdd_of_none hl]
        refine ⟨?_, rfl, by rw [hl], hI, hC⟩
        have hsearch : queryPrecedence? a ro re pr = some (some rule) := by rw [hqp, hs]
        unfold getRuleVal
        rw [getRuleSt_search (a := eraseL a) hd hne (by rw [eraseL_eq]) (by rw [hqpe]; exact hsearch)]
        rfl
      | none =>
        rw [getRuleSt_catch hd hne hcmatch (by rw [hqp, hs]) hall] at h
        obtain ⟨rfl, rfl⟩ := Prod.mk.inj (Option.some.inj h)
        refine ⟨?_, rfl, by rw [hl], hI, hC⟩
        unfold getRuleVal
        rw [getRuleSt_catch (a := eraseL a) hd hne (by rw [eraseL_eq])
          (by rw [hqpe, hqp, hs]) hall]
        rfl

/-! ## Lock/unlock and mutation steps preserve the run invariants -/

theorem eraseL_of_unlocked {a : Acl} (h : a.lock = none) : eraseL a = a :=
  acl_ext rfl rfl rfl h.symm

theorem lockOp_inv {a : Acl} (hI : Inv a) : Inv (lockOp a) :=
  inv_of_fields hI (by unfold lockOp; split <;> rfl) (by unfold lockOp; split <;> rfl)
    (by unfold lockOp; split <;> rfl)

theorem lockOp_lock_isSome (a : Acl) : (lockOp a).lock.isSome = true := by
  unfold lockOp
  cases hl : a.lock <;> simp [hl]

theorem lockOp_eraseL (a : Acl) : eraseL (lockOp a) = eraseL a := by
  unfold lockOp eraseL
  cases hl : a.lock <;> simp [hl]

theorem lockOp_cacheOk {a : Acl} (hC : CacheOk a) : CacheOk (lockOp a) := by
  cases hl : a.lock with
  | none =>
    rw [lockOp_of_none hl]
    intro c hc q r h0
    obtain rfl : ([] : List (Query × Rule)) = c := Option.some.inj hc
    cases h0
  | some c0 => rw [lockOp_of_some hl]; exact hC

theorem unlockOp_inv {a : Acl} (hI : Inv a) : Inv (unlockOp a) := by
  rw [unlockOp_eq]
  exact inv_of_fields hI rfl rfl rfl

theorem unlockOp_eraseL (a : Acl) : eraseL (unlockOp a) = eraseL a := by
  rw [unlockOp_eq]
  rfl

theorem getRuleSt_unlocked_state {a : Acl} {ro re pr : Option Name} {r : Rule} {a' : Acl}
    (hl : a.lock = none) (h : getRuleSt a ro re pr = some (r, a')) : a' = a := by
  obtain ⟨h1, h2, h3, h4⟩ := getRuleSt_state h
  rw [hl] at h4
  exact acl_ext h1 h2 h3 ((Option.not_isSome_iff_eq_none.mp (by simp [h4])).trans hl.symm)

theorem addRole_run {a : Acl} (hI : Inv a) (n : Name) (ps : List Name) :
    Inv ((addRole a n ps).toOption.getD a) ∧
      ((addRole a n ps).toOption.getD a).lock = a.lock := by
  cases h : addRole a n ps with
  | error e => exact ⟨hI, rfl⟩
  | ok a' =>
    obtain ⟨hn, hps, rfl⟩ := addRole_ok h
    obtain ⟨h1, h2, h3⟩ := hI
    refine ⟨⟨h1, h2, hn, ?_, h3⟩, rfl⟩
    intro p hp
    exact hps p (List.mem_reverse.mp hp)

theorem addResource_run {a : Acl} (hI : Inv a) (n : Name) (p : Option Name) :
    Inv ((addResource a n p).toOption.getD a) ∧
      ((addResource a n p).toOption.getD a).lock = a.lock := by
  cases h : addResource a n p with
  | error e => exact ⟨hI, rfl⟩
  | ok a' =>
    obtain ⟨hn, hp, rfl⟩ := addResource_ok h
    obtain ⟨h1, h2, h3⟩ := hI
    exact ⟨⟨h1, ⟨hn, hp, h2⟩, h3⟩, rfl⟩

theorem setRule_run {a : Acl} (hI : Inv a) (ro re pr : Option Name) (ac : Access) :
    Inv ((setRule a ro re pr ac).toOption.getD a) ∧
      ((setRule a ro re pr ac).toOption.getD a).lock = a.lock := by
  cases h : setRule a ro re pr ac with
  | error e => exact ⟨hI, rfl⟩
  | ok a' =>
    obtain ⟨hlock, hcase⟩ := setRule_ok h
    obtain ⟨h1, h2, h3⟩ := hI
    rcases hcase with ⟨_, rfl⟩ | ⟨hne, rfl⟩
    · exact ⟨⟨h1, h2, h3⟩, rfl⟩
    · exact ⟨⟨(lookupA_cons_ne _ _ (Ne.symm hne)).trans h1, h2, h3⟩, rfl⟩

/-! ## The run with locks simulates the stripped, never-locked run -/

theorem stripLocks_cons_lock (ops : List Op) :
    stripLocks (Op.lockA :: ops) = stripLocks ops := rfl

theorem stripLocks_cons_unlock (ops : List Op) :
    stripLocks (Op.unlockA :: ops) = stripLocks ops := rfl

theorem stripLocks_cons_keep (op : Op) (h : isLockOp op = false) (ops : List Op) :
    stripLocks (op :: ops) = op :: stripLocks ops := by
  unfold stripLocks
  rw [List.filter_cons_of_pos (by simp [h])]

theorem runT_erase : ∀ (ops : List Op) (a : Acl), Inv a → CacheOk a →
    unlockedMuts a.lock.isSome ops = true →
    ∃ a1 t, runT a ops = some (a1, t) ∧
      runT (eraseL a) (stripLocks ops) = some (eraseL a1, t) ∧
      Inv a1 ∧ CacheOk a1 := by
  intro ops
  induction ops with
  | nil =>
    intro a hI hC _
    exact ⟨a, [], rfl, rfl, hI, hC⟩
  | cons op ops ih =>
    intro a hI hC hU
    cases op with
    | lockA =>
      have hU' : unlockedMuts (lockOp a).lock.isSome ops = true := by
        rw [lockOp_lock_isSome]
        exact hU
      obtain ⟨a1, t, h1, h2, hI1, hC1⟩ := ih (lockOp a) (lockOp_inv hI) (lockOp_cacheOk hC) hU'
      refine ⟨a1, t, ?_, ?_, hI1, hC1⟩
      · simp only [runT, runOp, h1, List.nil_append]
      · rw [stripLocks_cons_lock]
        rw [lockOp_eraseL] at h2
        exact h2
    | unlockA =>
      have hU' : unlockedMuts (unlockOp a).lock.isSome ops = true := by
        rw [unlockOp_eq]
        exact hU
      obtain ⟨a1, t, h1, h2, hI1, hC1⟩ :=
        ih (unlockOp a) (unlockOp_inv hI) (cacheOk_of_unlocked (by rw [unlockOp_eq])) hU'
      refine ⟨a1, t, ?_, ?_, hI1, hC1⟩
      · simp only [runT, runOp, h1, List.nil_append]
      · rw [stripLocks_cons_unlock]
        rw [unlockOp_eraseL] at h2
        exact h2
    | addRoleA n ps =>
      obtain ⟨hunlocked, hrest⟩ := (Bool.and_eq_true _ _).mp hU
      have hnone : a.lock = none := by
        cases hl : a.lock with
        | none => rfl
        | some c => rw [hl] at hunlocked; simp at hunlocked
      obtain ⟨hI2, hlock2⟩ := addRole_run hI n ps
      have hC2 : CacheOk ((addRole a n ps).toOption.getD a) :=
        cacheOk_of_unlocked (hlock2.trans hnone)
      have hU2 : unlockedMuts ((addRole a n ps).toOption.getD a).lock.isSome ops = true := by
        rw [hlock2.trans hnone]
        rw [hnone] at hrest
        exact hrest
      obtain ⟨a1, t, h1, h2, hI1, hC1⟩ := ih _ hI2 hC2 hU2
      refine ⟨a1, t, ?_, ?_, hI1, hC1⟩
      · simp only [runT, runOp, h1, List.nil_append]
      · rw [stripLocks_cons_keep (Op.addRoleA n ps) rfl, eraseL_of_unlocked hnone]
        rw [eraseL_of_unlocked (hlock2.trans hnone)] at h2
        simp only [runT, runOp, h2, List.nil_append]
    | addResourceA n p =>
      obtain ⟨hunlocked, hrest⟩ := (Bool.and_eq_true _ _).mp hU
      have hnone : a.lock = none := by
        cases hl : a.lock with
        | none => rfl
        | some c => rw [hl] at hunlocked; simp at hunlocked
      obtain ⟨hI2, hlock2⟩ := addResource_run hI n p
      have hC2 : CacheOk ((addResource a n p).toOption.getD a) :=
        cacheOk_of_unlocked (hlock2.trans hnone)
      have hU2 : unlockedMuts ((addResource a n p).toOption.getD a).lock.isSome ops = true := by
        rw [hlock2.trans hnone]
        rw [hnone] at hrest
        exact hrest
      obtain ⟨a1, t, h1, h2, hI1, hC1⟩ := ih _ hI2 hC2 hU2
      refine ⟨a1, t, ?_, ?_, hI1, hC1⟩
      · simp only [runT, runOp, h1, List.nil_append]
      · rw [stripLocks_cons_keep (Op.addResourceA n p) rfl, eraseL_of_unlocked hnone]
        rw [eraseL_of_unlocked (hlock2.trans hnone)] at h2
        simp only [runT, runOp, h2, List.nil_append]
    | setRuleA ro re pr ac =>
      obtain ⟨hunlocked, hrest⟩ := (Bool.and_eq_true _ _).mp hU
      have hnone : a.lock = none := by
        cases hl : a.lock with
        | none => rfl
        | some c => rw [hl] at hunlocked; simp at hunlocked
      obtain ⟨hI2, hlock2⟩ := setRule_run hI ro re pr ac
      have hC2 : CacheOk ((setRule a ro re pr ac).toOption.getD a) :=
        cacheOk_of_unlocked (hlock2.trans hnone)
      have hU2 : unlockedMuts ((setRule a ro re pr ac).toOption.getD a).lock.isSome ops
          = true := by
        rw [hlock2.trans hnone]
        rw [hnone] at hrest
        exact hrest
      obtain ⟨a1, t, h1, h2, hI1, hC1⟩ := ih _ hI2 hC2 hU2
      refine ⟨a1, t, ?_, ?_, hI1, hC1⟩
      · simp only [runT, runOp, h1, List.nil_append]
      · rw [stripLocks_cons_keep (Op.setRuleA ro re pr ac) rfl, eraseL_of_unlocked hnone]
        rw [eraseL_of_unlocked (hlock2.trans hnone)] at h2
        simp only [runT, runOp, h2, List.nil_append]
    | queryA ro re pr =>
      obtain ⟨r, a2, hq⟩ := getRuleSt_total hI ro re pr
      obtain ⟨hval, herase, hlockeq, hI2, hC2⟩ := getRule_erase hI hC hq
      have hU2 : unlockedMuts a2.lock.isSome ops = true := by
        rw [hlockeq]
        exact hU
      obtain ⟨a1, t, h1, h2, hI1, hC1⟩ := ih a2 hI2 hC2 hU2
      obtain ⟨⟨r', b'⟩, hb, hr'⟩ := Option.map_eq_some'.mp hval
      obtain rfl : r' = r := hr'
      have hb' : b' = eraseL a :=
        getRuleSt_unlocked_state (by rw [eraseL_eq]) hb
      subst hb'
      refine ⟨a1, [r'] ++ t, ?_, ?_, hI1, hC1⟩
      · simp only [runT, runOp, hq, Option.map_some', h1]
      · rw [stripLocks_cons_keep (Op.queryA ro re pr) rfl]
        rw [herase] at h2
        simp only [runT, runOp, hb, Option.map_some', h2]

/-! ## Frame lemmas: registering a fresh entity preserves other decisions -/

theorem getRuleVal_eq (a : Acl) (ro re pr : Option Name) :
    getRuleVal a ro re pr =
      match lookupA { resource := re, role := ro, privilege := pr } a.rules with
      | some rule => some rule
      | none =>
        if re.isSome || ro.isSome || pr.isSome then
          match (match a.lock with
                 | some c => lookupA { resource := re, role := ro, privilege := pr } c
                 | none => none) with
          | some rule => some rule
          | none =>
            match queryPrecedence? a ro re pr with
            | none => none
            | some (some rule) => some rule
            | some none =>
              match lookupA Query.ALL a.rules with
              | some rule => some rule
              | none => none
        else
          match lookupA Query.ALL a.rules with
          | some rule => some rule
          | none => none := by
  unfold getRuleVal getRuleSt
  dsimp only
  cases hd : lookupA { resource := re, role := ro, privilege := pr } a.rules with
  | some rule => rfl
  | none =>
    by_cases hg : (re.isSome || ro.isSome || pr.isSome) = true
    · rw [if_pos hg, if_pos hg]
      cases hl : a.lock with
      | none =>
        dsimp only
        cases hq : queryPrecedence? a ro re pr with
        | none => rfl
        | some o =>
          cases o with
          | some rule => rfl
          | none =>
            cases hall : lookupA Query.ALL a.rules with
            | some rule => rfl
            | none => rfl
      | some c =>
        dsimp only
        cases hc : lookupA { resource := re, role := ro, privilege := pr } c with
        | some rule => rfl
        | none =>
          cases hq : queryPrecedence? a ro re pr with
          | none => rfl
          | some o =>
            cases o with
            | some rule => rfl
            | none =>
              cases hall : lookupA Query.ALL a.rules with
              | some rule => rfl
              | none => rfl
    · rw [if_neg hg, if_neg hg]
      cases hall : lookupA Query.ALL a.rules with
      | some rule => rfl
      | none => rfl

theorem queryRoles_rules {a b : Acl} (h : b.rules = a.rules)
    (re : Option Name) (roles : Option (List Name)) (pr : Option Name) :
    queryRoles b re roles pr = queryRoles a re roles pr := by
  rw [queryRoles_probes, queryRoles_probes, h]

theorem queryPrecedence?_congr {a b : Acl} {ro re pr : Option Name}
    (hrules : b.rules = a.rules)
    (hres : ∀ x, re = some x → getResourceLineage? b x = getResourceLineage? a x)
    (hrol : ∀ x, ro = some x → getRoleLineage? b x = getRoleLineage? a x) :
    queryPrecedence? b ro re pr = queryPrecedence? a ro re pr := by
  have hqr : ∀ rs roles, queryRoles b rs roles pr = queryRoles a rs roles pr :=
    fun rs roles => queryRoles_rules hrules rs roles pr
  unfold queryPrecedence?
  cases re with
  | none =>
    cases ro with
    | none =>
      dsimp only
      simp only [hqr]
    | some x =>
      dsimp only
      rw [hrol x rfl]
      simp only [hqr]
  | some y =>
    cases ro with
    | none =>
      dsimp only
      rw [hres y rfl]
      simp only [hqr]
    | some x =>
      dsimp only
      rw [hres y rfl, hrol x rfl]
      simp only [hqr]

theorem getRuleVal_congr {a b : Acl} {ro re pr : Option Name}
    (hrules : b.rules = a.rules) (hlock : b.lock = a.lock)
    (hq : queryPrecedence? b ro re pr = queryPrecedence? a ro re pr) :
    getRuleVal b ro re pr = getRuleVal a ro re pr := by
  rw [getRuleVal_eq, getRuleVal_eq, hrules, hlock, hq]

theorem addRole_frame {a : Acl} (hI : Inv a) {n : Name} {ps : List Name} {a' : Acl}
    (hok : addRole a n ps = Except.ok a') (ro re pr : Option Name) (hro : ro ≠ some n) :
    getRuleVal a' ro re pr = getRuleVal a ro re pr := by
  obtain ⟨hn, hps, rfl⟩ := addRole_ok hok
  apply getRuleVal_congr (a := a) (b := { a with roles := (n, ps.reverse) :: a.roles }) rfl rfl
  apply queryPrecedence?_congr (a := a) (b := { a with roles := (n, ps.reverse) :: a.roles }) rfl
  · intro x _
    rfl
  · intro x hx
    apply getRoleLineage?_fresh rfl hI.2.2 hn
    intro hxn
    exact hro (by rw [hx, hxn])

theorem addResource_frame {a : Acl} (hI : Inv a) {n : Name} {p : Option Name} {a' : Acl}
    (hok : addResource a n p = Except.ok a') (ro re pr : Option Name) (hre : re ≠ some n) :
    getRuleVal a' ro re pr = getRuleVal a ro re pr := by
  obtain ⟨hn, hp, rfl⟩ := addResource_ok hok
  apply getRuleVal_congr (a := a) (b := { a with resources := (n, p) :: a.resources }) rfl rfl
  apply queryPrecedence?_congr (a := a) (b := { a with resources := (n, p) :: a.resources }) rfl
  · intro x hx
    apply getResourceLineage?_fresh rfl hI.2.1 hn
    intro hxn
    exact hre (by rw [hx, hxn])
  · intro x _
    rfl

/-! ## Runs from `Acl::new` stay reachable -/

theorem runOp_reachable {a : Acl} (h : Reachable a) (op : Op) :
    ∀ a1 t, runOp a op = some (a1, t) → Reachable a1 := by
  intro a1 t hrun
  cases op with
  | lockA =>
    obtain ⟨rfl, _⟩ := Prod.mk.inj (Option.some.inj hrun)
    exact Reachable.lockR h
  | unlockA =>
    obtain ⟨rfl, _⟩ := Prod.mk.inj (Option.some.inj hrun)
    exact Reachable.unlockR h
  | addRoleA n ps =>
    obtain ⟨rfl, _⟩ := Prod.mk.inj (Option.some.inj hrun)
    cases hr : addRole a n ps with
    | ok a' => exact Reachable.addRoleR h hr
    | error e => exact h
  | addResourceA n p =>
    obtain ⟨rfl, _⟩ := Prod.mk.inj (Option.some.inj hrun)
    cases hr : addResource a n p with
    | ok a' => exact Reachable.addResourceR h hr
    | error e => exact h
  | setRuleA ro re pr ac =>
    obtain ⟨rfl, _⟩ := Prod.mk.inj (Option.some.inj hrun)
    cases hr : setRule a ro re pr ac with
    | ok a' => exact Reachable.setRuleR h hr
    | error e => exact h
  | queryA ro re pr =>
    simp only [runOp] at hrun
    obtain ⟨⟨r, a2⟩, hq, hpair⟩ := Option.map_eq_some'.mp hrun
    obtain ⟨rfl, _⟩ := Prod.mk.inj hpair
    exact Reachable.queryR h hq

theorem runT_reachable : ∀ (ops : List Op) {a a1 : Acl} {t : List Rule},
    Reachable a → runT a ops = some (a1, t) → Reachable a1 := by
  intro ops
  induction ops with
  | nil =>
    intro a a1 t h hrun
    obtain ⟨rfl, _⟩ := Prod.mk.inj (Option.some.inj hrun)
    exact h
  | cons op ops ih =>
    intro a a1 t h hrun
    unfold runT at hrun
    cases hop : runOp a op with
    | none => rw [hop] at hrun; cases hrun
    | some p =>
      obtain ⟨a2, t2⟩ := p
      rw [hop] at hrun
      dsimp only at hrun
      cases htail : runT a2 ops with
      | none => rw [htail] at hrun; cases hrun
      | some q =>
        obtain ⟨a3, t3⟩ := q
        rw [htail] at hrun
        dsimp only at hrun
        obtain ⟨rfl, _⟩ := Prod.mk.inj (Option.some.inj hrun)
        exact ih (runOp_reachable h op a2 t2 hop) htail

/-! ## The claims -/

/-- Claim C5: When `add_role(name, parents)` is called with `name` unregistered
and some parent unregistered, it fails with `MissingParent` carrying the first
unregistered parent in declaration order (not the name being added: the Rust
binding shadows `name` with the loop variable); likewise
`add_resource(name, Some p)` with `p` unregistered fails with
`MissingParent(p)`. -/
theorem claim_C5 (a : Acl) :
    (∀ (name : Name) (pre : List Name) (p : Name) (rest : List Name),
      lookupA name a.roles = none →
      (∀ x ∈ pre, (lookupA x a.roles).isSome = true) →
      lookupA p a.roles = none →
      addRole a name (pre ++ p :: rest) = Except.error (Error.MissingParent p)) ∧
    (∀ (name p : Name), lookupA name a.resources = none →
      lookupA p a.resources = none →
      addResource a name (some p) = Except.error (Error.MissingParent p)) := by
  constructor
  · intro name pre p rest hname hpre hp
    unfold addRole
    rw [if_neg (by simp [hname])]
    rw [if_pos (by simp only [List.length_append, List.length_cons]; omega)]
    rw [firstMissingRole_first pre p rest hpre hp]
  · intro name p hname hp
    unfold addResource
    rw [if_neg (by simp [hname])]
    dsimp only
    rw [if_neg (by simp [hp])]

theorem claim_C5_witness :
    addRole Acl.new "x" ([] ++ "par" :: []) = Except.error (Error.MissingParent "par") ∧
    addResource Acl.new "x" (some "par") = Except.error (Error.MissingParent "par") := by
  constructor
  · exact (claim_C5 Acl.new).1 "x" [] "par" [] rfl (by simp) rfl
  · exact (claim_C5 Acl.new).2 "x" "par" rfl rfl

/-- Claim C6: In every reachable state the rule table maps the catch-all key to
`Deny`; `get_rule(⊥,⊥,⊥)` returns `Deny`; and a `set_rule` on the all-wildcard
key while unlocked returns `Ok` without modifying anything. -/
theorem claim_C6 (a : Acl) (h : Reachable a) :
    lookupA Query.ALL a.rules = some { acc := Access.Deny } ∧
    getRuleVal a none none none = some { acc := Access.Deny } ∧
    (∀ ac, a.lock = none → setRule a none none none ac = Except.ok a) := by
  have hI := reachable_inv h
  refine ⟨hI.1, ?_, ?_⟩
  · unfold getRuleVal
    rw [getRuleSt_direct hI.1]
    rfl
  · intro ac hlock
    unfold setRule
    rw [if_neg (by simp [hlock])]
    dsimp only
    rw [if_pos (show ({ resource := none, role := none, privilege := none } : Query)
        = Query.ALL from rfl)]

theorem claim_C6_witness :
    lookupA Query.ALL Acl.new.rules = some { acc := Access.Deny } ∧
    getRuleVal Acl.new none none none = some { acc := Access.Deny } ∧
    setRule Acl.new none none none Access.Allow = Except.ok Acl.new := by
  refine ⟨(claim_C6 Acl.new Reachable.base).1, (claim_C6 Acl.new Reachable.base).2.1,
    (claim_C6 Acl.new Reachable.base).2.2 Access.Allow rfl⟩

/-- Claim C7: While locked, `set_rule` / `allow` / `deny` return the `Locked`
error (and, the embedding returning no new state, leave the rule table
unchanged), whereas `add_role` and `add_resource` ignore the lock entirely:
their outcome is the same as on the identical state with any other lock
field. -/
theorem claim_C7 (a : Acl) :
    (a.lock.isSome = true →
      ∀ ro re pr ac, setRule a ro re pr ac = Except.error Error.Locked ∧
        allow a ro re pr = Except.error Error.Locked ∧
        deny a ro re pr = Except.error Error.Locked) ∧
    (∀ l n ps, addRole { a with lock := l } n ps =
        (addRole a n ps).map (fun x => { x with lock := l })) ∧
    (∀ l n p, addResource { a with lock := l } n p =
        (addResource a n p).map (fun x => { x with lock := l })) := by
  refine ⟨?_, ?_, ?_⟩
  · intro hl ro re pr ac
    have hs : ∀ ac', setRule a ro re pr ac' = Except.error Error.Locked := by
      intro ac'
      unfold setRule
      rw [if_pos hl]
    exact ⟨hs ac, hs Access.Allow, hs Access.Deny⟩
  · intro l n ps
    unfold addRole
    dsimp only
    by_cases h1 : (lookupA n a.roles).isSome = true
    · rw [if_pos h1, if_pos h1]
      rfl
    · rw [if_neg h1, if_neg h1]
      by_cases h2 : ps.length > 0
      · rw [if_pos h2, if_pos h2]
        cases hfm : firstMissingRole a.roles ps with
        | none => rfl
        | some p => rfl
      · rw [if_neg h2, if_neg h2]
        rfl
  · intro l n p
    unfold addResource
    dsimp only
    by_cases h1 : (lookupA n a.resources).isSome = true
    · rw [if_pos h1, if_pos h1]
      rfl
    · rw [if_neg h1, if_neg h1]
      cases p with
      | none => rfl
      | some q =>
        dsimp only
        by_cases h2 : (lookupA q a.resources).isSome = true
        · rw [if_pos h2, if_pos h2]
          rfl
        · rw [if_neg h2, if_neg h2]
          rfl

theorem claim_C7_witness :
    setRule (lockOp Acl.new) none none (some "x") Access.Allow
        = Except.error Error.Locked ∧
    allow (lockOp Acl.new) none none (some "x") = Except.error Error.Locked ∧
    addRole { Acl.new with lock := some [] } "g" []
        = (addRole Acl.new "g" []).map (fun x => { x with lock := some [] }) := by
  refine ⟨((claim_C7 (lockOp Acl.new)).1 rfl none none (some "x") Access.Allow).1,
    ((claim_C7 (lockOp Acl.new)).1 rfl none none (some "x") Access.Allow).2.1,
    (claim_C7 Acl.new).2.1 (some []) "g" []⟩

/-- Claim C10: `set_rule` validates lock state first, then the resource, then
the role: with both slots unregistered it reports `MissingResource` (never
`MissingRole`), and a failing call leaves the state unchanged. -/
theorem claim_C10 (a : Acl) :
    (∀ (ro re pr : Option Name) (ac : Access), a.lock.isSome = true →
      setRule a ro re pr ac = Except.error Error.Locked) ∧
    (∀ (rn qn : Name) (pr : Option Name) (ac : Access), a.lock = none →
      lookupA rn a.resources = none → lookupA qn a.roles = none →
      setRule a (some qn) (some rn) pr ac = Except.error (Error.MissingResource rn)) ∧
    (∀ (ro re pr : Option Name) (ac : Access) (e : Error),
      setRule a ro re pr ac = Except.error e →
      runOp a (Op.setRuleA ro re pr ac) = some (a, [])) := by
  refine ⟨?_, ?_, ?_⟩
  · intro ro re pr ac hl
    unfold setRule
    rw [if_pos hl]
  · intro rn qn pr ac hl hres hrol
    unfold setRule
    rw [if_neg (by simp [hl])]
    dsimp only
    rw [if_pos (by simp [hres])]
  · intro ro re pr ac e hfail
    simp [runOp, hfail, Except.toOption]

theorem claim_C10_witness :
    setRule Acl.new (some "rol") (some "res") none Access.Allow
        = Except.error (Error.MissingResource "res") ∧
    runOp Acl.new (Op.setRuleA (some "rol") (some "res") none Access.Allow)
        = some (Acl.new, []) := by
  refine ⟨(claim_C10 Acl.new).2.1 "res" "rol" none Access.Allow rfl rfl rfl,
    (claim_C10 Acl.new).2.2 (some "rol") (some "res") none Access.Allow
      (Error.MissingResource "res")
      ((claim_C10 Acl.new).2.1 "res" "rol" none Access.Allow rfl rfl rfl)⟩

/-- Claim C2: For every registered role, `get_role_lineage` returns the name
followed by its ancestors in DFS pre-order over the stored (reversed) parent
lists with first-visit-wins deduplication (the flat-expansion reading of the
spec, `roleLineageSpec`); the result never repeats an ancestor; an
unregistered name yields the empty sequence; and `add_role` stores the
parent list reversed, so the last-declared parent is visited first. -/
theorem claim_C2 (a : Acl) (h : Reachable a) :
    (∀ name, getRoleLineage? a name = roleLineageSpec a name) ∧
    (∀ name l, getRoleLineage? a name = some l → l.Nodup) ∧
    (∀ name, lookupA name a.roles = none → getRoleLineage? a name = some []) ∧
    (∀ name parents, lookupA name a.roles = some parents →
      ∃ l, getRoleLineage? a name = some (name :: l)) ∧
    (∀ n ps a', addRole a n ps = Except.ok a' →
      lookupA n a'.roles = some ps.reverse) := by
  have hI := reachable_inv h
  refine ⟨fun name => getRoleLineage?_eq_spec a name,
    fun name l hl => getRoleLineage?_nodup hI.2.2 hl, ?_, ?_, ?_⟩
  · intro name hn
    unfold getRoleLineage?
    rw [hn]
  · intro name parents hn
    have htotal : (expandRoles a.roles a.roles.length parents).isSome = true := by
      apply expandRoles_total hI.2.2
      intro p hp
      obtain ⟨_, hrank⟩ := rolesOk_parent hI.2.2 hn hp
      have := rankOf_le_length a.roles name
      omega
    obtain ⟨e, he⟩ := Option.isSome_iff_exists.mp htotal
    refine ⟨(fvAcc [] e).2, ?_⟩
    rw [getRoleLineage?_eq_spec]
    unfold roleLineageSpec
    rw [hn]
    dsimp only
    rw [he]
    rfl
  · intro n ps a' hok
    obtain ⟨_, _, rfl⟩ := addRole_ok hok
    exact lookupA_cons_self n ps.reverse a.roles

theorem claim_C2_witness :
    getRoleLineage? Acl.new "staff" = roleLineageSpec Acl.new "staff" ∧
    getRoleLineage? Acl.new "staff" = some [] :=
  ⟨(claim_C2 Acl.new Reachable.base).1 "staff",
   (claim_C2 Acl.new Reachable.base).2.2.1 "staff" rfl⟩

/-- Claim C8: In every reachable state `get_rule` returns a rule without
panicking (the catch-all index and the lineage `unwrap` are unreachable),
and `is_allowed` and `is_denied` are exact negations of one another. -/
theorem claim_C8 (a : Acl) (h : Reachable a) (ro re pr : Option Name) :
    (getRuleSt a ro re pr).isSome = true ∧
    isAllowed? a ro re pr = (isDenied? a ro re pr).map (fun b => !b) ∧
    (∀ n, (getResourceLineage? a n).isSome = true) ∧
    (∀ n, (getRoleLineage? a n).isSome = true) := by
  have hI := reachable_inv h
  obtain ⟨r, a', hq⟩ := getRuleSt_total hI ro re pr
  refine ⟨by rw [hq]; rfl, ?_, fun n => getResourceLineage?_isSome hI.2.1 n,
    fun n => getRoleLineage?_isSome hI.2.2 n⟩
  unfold isAllowed? isDenied? getRuleVal
  rw [hq]
  obtain ⟨acc⟩ := r
  cases acc <;> rfl

theorem claim_C8_witness :
    (getRuleSt Acl.new (some "u") none (some "read")).isSome = true ∧
    isAllowed? Acl.new (some "u") none (some "read")
        = (isDenied? Acl.new (some "u") none (some "read")).map (fun b => !b) ∧
    (getResourceLineage? Acl.new "doc").isSome = true := by
  refine ⟨(claim_C8 Acl.new Reachable.base (some "u") none (some "read")).1,
    (claim_C8 Acl.new Reachable.base (some "u") none (some "read")).2.1,
    (claim_C8 Acl.new Reachable.base (some "u") none (some "read")).2.2.1 "doc"⟩

/-- Claim C9: After the Scenario A setup followed by the Scenario B setup, the
four listed assertions hold; in particular the wildcard-role deny on the more
specific resource `anouncement` beats admin's all-wildcard allow, and
marketing inherits staff's deny on revising the latest news. -/
theorem claim_C9 :
    (runT Acl.new
      [Op.addRoleA "guest" [], Op.addRoleA "staff" ["guest"],
       Op.addRoleA "editor" ["staff"], Op.addRoleA "admin" [],
       Op.setRuleA (some "guest") none (some "view") Access.Allow,
       Op.setRuleA (some "staff") none (some "edit") Access.Allow,
       Op.setRuleA (some "staff") none (some "submit") Access.Allow,
       Op.setRuleA (some "staff") none (some "revise") Access.Allow,
       Op.setRuleA (some "editor") none (some "publish") Access.Allow,
       Op.setRuleA (some "editor") none (some "archive") Access.Allow,
       Op.setRuleA (some "editor") none (some "delete") Access.Allow,
       Op.setRuleA (some "admin") none none Access.Allow,
       Op.addRoleA "marketing" ["staff"],
       Op.addResourceA "newsletter" none, Op.addResourceA "news" none,
       Op.addResourceA "latest" (some "news"),
       Op.addResourceA "anouncement" (some "news"),
       Op.setRuleA (some "marketing") (some "newsletter") (some "publish") Access.Allow,
       Op.setRuleA (some "marketing") (some "newsletter") (some "archive") Access.Allow,
       Op.setRuleA (some "marketing") (some "latest") (some "publish") Access.Allow,
       Op.setRuleA (some "marketing") (some "latest") (some "archive") Access.Allow,
       Op.setRuleA (some "staff") (some "latest") (some "revise") Access.Deny,
       Op.setRuleA none (some "anouncement") (some "archive") Access.Deny]).map
      (fun p =>
        (isAllowed? p.1 (some "marketing") (some "newsletter") (some "publish"),
         isAllowed? p.1 (some "staff") (some "newsletter") (some "publish"),
         isAllowed? p.1 (some "marketing") (some "latest") (some "revise"),
         isAllowed? p.1 (some "admin") (some "anouncement") (some "archive")))
    = some (some true, some false, some false, some false) := by
  decide

/-- Claim C1, counterexample: A reachable state in which the verbatim key is
not in the rule table and is not the all-wildcard key, yet `get_rule` does
not return the hierarchical-search result: while locked, a query on the role
`newbie` (then unregistered) is cached; after `add_role("newbie", ["admin"])`
— allowed while locked — the cache answers `Allow` although the search order
of the claim yields admin's `Deny`. -/
theorem claim_C1_counterexample :
    (runT Acl.new
      [Op.addResourceA "doc" none, Op.addRoleA "admin" [],
       Op.setRuleA (some "admin") (some "doc") (some "read") Access.Deny,
       Op.setRuleA none (some "doc") (some "read") Access.Allow,
       Op.lockA, Op.queryA (some "newbie") (some "doc") (some "read"),
       Op.addRoleA "newbie" ["admin"]]).map
      (fun p =>
        (lookupA
           { resource := some "doc", role := some "newbie", privilege := some "read" }
           p.1.rules,
         getRuleVal p.1 (some "newbie") (some "doc") (some "read"),
         (specSearch p.1 (some "newbie") (some "doc") (some "read")).getD
            { acc := Access.Deny }))
    = some (none, some { acc := Access.Allow }, { acc := Access.Deny }) := by
  decide

/-- Claim C1, amended: For every reachable state and every query whose
verbatim key is not in the rule table, is not the all-wildcard key, and —
when the ACL is locked — is not in the decision cache, `get_rule` performs
the hierarchical search in the claimed nested order (outer resource lineage
then wildcard, middle role lineage then wildcard, inner specific-then-
wildcard privilege, as flattened in `specSearch`); the first rule-table hit
is returned, and if no probe hits, the catch-all rule is returned. -/
theorem claim_C1 (a : Acl) (h : Reachable a) (ro re pr : Option Name)
    (hd : lookupA { resource := re, role := ro, privilege := pr } a.rules = none)
    (_hne : ({ resource := re, role := ro, privilege := pr } : Query) ≠ Query.ALL)
    (hcm : ∀ c, a.lock = some c →
      lookupA { resource := re, role := ro, privilege := pr } c = none) :
    getRuleVal a ro re pr =
      some ((specSearch a ro re pr).getD { acc := Access.Deny }) :=
  getRuleVal_search (reachable_inv h) hd hcm

theorem claim_C1_witness :
    getRuleVal Acl.new (some "x") none none
      = some ((specSearch Acl.new (some "x") none none).getD { acc := Access.Deny }) :=
  claim_C1 Acl.new Reachable.base (some "x") none none rfl (by decide)
    (fun c hc => by cases hc)

/-- Claim C4, counterexample: A successful `add_role` changes a rule decision:
with `allow(admin, ⊥, ⊥)` in place, `get_rule(newbie, ⊥, ⊥)` is `Deny`
before `add_role("newbie", ["admin"])` and `Allow` after it. -/
theorem claim_C4_counterexample :
    (runT Acl.new
      [Op.addRoleA "admin" [], Op.setRuleA (some "admin") none none Access.Allow]).map
      (fun p =>
        (getRuleVal p.1 (some "newbie") none none,
         (addRole p.1 "newbie" ["admin"]).toOption.map
           (fun a2 => getRuleVal a2 (some "newbie") none none)))
    = some (some { acc := Access.Deny }, some (some { acc := Access.Allow })) := by
  decide

/-- Claim C4, amended: Successful `add_role` / `add_resource` calls preserve
`get_rule` for every query whose role slot (for `add_role`) resp. resource
slot (for `add_resource`) differs from the newly registered name; queries
naming the new entity may change, through the inheritance that registration
enables. -/
theorem claim_C4 (a : Acl) (h : Reachable a) :
    (∀ n ps a', addRole a n ps = Except.ok a' →
      ∀ ro re pr, ro ≠ some n → getRuleVal a' ro re pr = getRuleVal a ro re pr) ∧
    (∀ n p a', addResource a n p = Except.ok a' →
      ∀ ro re pr, re ≠ some n → getRuleVal a' ro re pr = getRuleVal a ro re pr) :=
  ⟨fun _ _ _ hok ro re pr hro => addRole_frame (reachable_inv h) hok ro re pr hro,
   fun _ _ _ hok ro re pr hre => addResource_frame (reachable_inv h) hok ro re pr hre⟩

theorem claim_C4_witness :
    getRuleVal
        { resources := ([] : List (Name × Option Name)), roles := [("g", ([] : List Name))],
          rules := [(Query.ALL, { acc := Access.Deny })], lock := none }
        (some "x") none none
      = getRuleVal Acl.new (some "x") none none :=
  (claim_C4 Acl.new Reachable.base).1 "g" [] _ rfl (some "x") none none (by decide)

/-- Claim C3, counterexample: Interspersing `lock()` does change query
results: in the locked run the decision for `(newbie, doc, read)` is cached
before `newbie` is registered, so the second query still answers `Allow`
from the cache, while the never-locked run answers `Deny` after the role is
added. -/
theorem claim_C3_counterexample :
    stripLocks
        [Op.addResourceA "doc" none, Op.addRoleA "admin" [],
         Op.setRuleA (some "admin") (some "doc") (some "read") Access.Deny,
         Op.setRuleA none (some "doc") (some "read") Access.Allow,
         Op.lockA, Op.queryA (some "newbie") (some "doc") (some "read"),
         Op.addRoleA "newbie" ["admin"],
         Op.queryA (some "newbie") (some "doc") (some "read")]
      = stripLocks
        [Op.addResourceA "doc" none, Op.addRoleA "admin" [],
         Op.setRuleA (some "admin") (some "doc") (some "read") Access.Deny,
         Op.setRuleA none (some "doc") (some "read") Access.Allow,
         Op.queryA (some "newbie") (some "doc") (some "read"),
         Op.addRoleA "newbie" ["admin"],
         Op.queryA (some "newbie") (some "doc") (some "read")] ∧
    (runT Acl.new
        [Op.addResourceA "doc" none, Op.addRoleA "admin" [],
         Op.setRuleA (some "admin") (some "doc") (some "read") Access.Deny,
         Op.setRuleA none (some "doc") (some "read") Access.Allow,
         Op.lockA, Op.queryA (some "newbie") (some "doc") (some "read"),
         Op.addRoleA "newbie" ["admin"],
         Op.queryA (some "newbie") (some "doc") (some "read")]).map Prod.snd
      ≠ (runT Acl.new
        [Op.addResourceA "doc" none, Op.addRoleA "admin" [],
         Op.setRuleA (some "admin") (some "doc") (some "read") Access.Deny,
         Op.setRuleA none (some "doc") (some "read") Access.Allow,
         Op.queryA (some "newbie") (some "doc") (some "read"),
         Op.addRoleA "newbie" ["admin"],
         Op.queryA (some "newbie") (some "doc") (some "read")]).map Prod.snd := by
  decide

/-- Claim C3, amended: For sequences in which every mutation (`add_role`,
`add_resource`, `set_rule`) executes in the unlocked state, the cache never
alters semantics: two runs from `Acl::new` whose sequences agree after
removing all `lock()` / `unlock()` calls produce identical query-result
traces; in particular `unlock()` followed by `lock()` yields the same
decisions as never locking. -/
theorem claim_C3 (ops1 ops2 : List Op)
    (hstrip : stripLocks ops1 = stripLocks ops2)
    (h1 : unlockedMuts false ops1 = true) (h2 : unlockedMuts false ops2 = true) :
    (runT Acl.new ops1).map Prod.snd = (runT Acl.new ops2).map Prod.snd := by
  obtain ⟨a1, t1, hr1, hs1, _, _⟩ :=
    runT_erase ops1 Acl.new inv_new (cacheOk_of_unlocked rfl) h1
  obtain ⟨a2, t2, hr2, hs2, _, _⟩ :=
    runT_erase ops2 Acl.new inv_new (cacheOk_of_unlocked rfl) h2
  rw [eraseL_of_unlocked rfl] at hs1 hs2
  rw [hstrip] at hs1
  obtain ⟨_, ht⟩ := Prod.mk.inj (Option.some.inj (hs1.symm.trans hs2))
  rw [hr1, hr2, ht]
  rfl

theorem claim_C3_witness :
    (runT Acl.new
        [Op.setRuleA none none (some "v") Access.Allow, Op.lockA,
         Op.queryA none none (some "v"), Op.unlockA,
         Op.queryA none none (some "v")]).map Prod.snd
      = (runT Acl.new
        [Op.setRuleA none none (some "v") Access.Allow,
         Op.queryA none none (some "v"),
         Op.queryA none none (some "v")]).map Prod.snd :=
  claim_C3
    [Op.setRuleA none none (some "v") Access.Allow, Op.lockA,
     Op.queryA none none (some "v"), Op.unlockA, Op.queryA none none (some "v")]
    [Op.setRuleA none none (some "v") Access.Allow,
     Op.queryA none none (some "v"), Op.queryA none none (some "v")]
    (by decide) (by decide) (by decide)

end ZorqAcl
